import Mathlib

/-!
Verification of the order-preserving row codec of this repository.

The development shallowly embeds the Rust sources:

* `src/arrow/src/row/fixed.rs`        — fixed-width column encoder/decoder
* `src/arrow/src/row/dictionary.rs`   — dictionary column encoder/decoder
* `src/arrow-array/src/temporal_conversions.rs` — `split_second`
* `src/arrow-data/src/equal/decimal.rs`         — `decimal_equal`

Bytes are modelled as `Nat` (always `< 256` for bytes produced by the code),
buffers as total functions `Nat → Nat` with explicit write primitives, machine
integers as `Int`/`Nat` with explicit two's-complement arithmetic.
-/

namespace ArrowRow

/-! ## Definitions -/

/-- Rust `!b` on a `u8`: bitwise complement of a byte. For `b < 256` this is
`255 - b`. -/
def byteNot (b : Nat) : Nat := 255 - b

/-- `SortOptions` (`arrow::compute::SortOptions`): sort direction and null
position for one column. -/
structure SortOptions where
  descending : Bool
  nulls_first : Bool
deriving DecidableEq, Repr

/-- Modelled from the spec: `null_sentinel` lives in `src/arrow/src/row/mod.rs`,
which is not part of the provided sources. Spec §6.3: "`null_sentinel(options)
= 0x00` if `options.nulls_first == options.descending` else `0xFF`". -/
def null_sentinel (opts : SortOptions) : Nat :=
  if opts.nulls_first == opts.descending then 0 else 255

/-- Big-endian bytes (most significant first) of `x` in `n` bytes: the meaning
of Rust `uN::to_be_bytes` / the unsigned reinterpretation of `iN::to_be_bytes`
applied to the two's-complement bit pattern. -/
def toBeBytes : Nat → Nat → List Nat
  | 0, _ => []
  | n + 1, x => (x / 256 ^ n) % 256 :: toBeBytes n (x % 256 ^ n)

/-- Value of a big-endian byte string (Rust `uN::from_be_bytes`). -/
def fromBeBytes : List Nat → Nat
  | [] => 0
  | b :: rest => b * 256 ^ rest.length + fromBeBytes rest

/-- `b[0] ^= 0x80`: toggle the top (sign) bit of the first byte. -/
def xorTop : List Nat → List Nat
  | [] => []
  | b :: rest => (b ^^^ 128) :: rest

/-- `encode` of the `encode_signed!` macro (fixed.rs lines 68-93), instantiated
for the `n`-byte signed integer type: `self.to_be_bytes()` (big-endian bytes of
the two's-complement pattern `v mod 2^(8n)`) with the top bit of byte 0
toggled. -/
def encodeSigned (n : Nat) (v : Int) : List Nat :=
  xorTop (toBeBytes n (v % (2 ^ (8 * n))).toNat)

/-- `decode` of the `encode_signed!` macro: toggle the top bit back and
reinterpret the big-endian bytes as a two's-complement signed integer
(`Self::from_be_bytes`). -/
def decodeSigned (n : Nat) (bs : List Nat) : Int :=
  if fromBeBytes (xorTop bs) < 2 ^ (8 * n - 1) then (fromBeBytes (xorTop bs) : Int)
  else (fromBeBytes (xorTop bs) : Int) - 2 ^ (8 * n)

/-- The signed range of the `n`-byte signed integer type `i(8n)`. -/
def inSignedRange (n : Nat) (v : Int) : Prop :=
  -(2 ^ (8 * n - 1)) ≤ v ∧ v < 2 ^ (8 * n - 1)

instance (n : Nat) (v : Int) : Decidable (inSignedRange n v) := by
  unfold inSignedRange; infer_instance

/-- Unsigned lexicographic comparison of byte strings, the order in which
encoded rows are compared. -/
def lexLt : List Nat → List Nat → Bool
  | [], [] => false
  | [], _ :: _ => true
  | _ :: _, [] => false
  | a :: as', b :: bs' => decide (a < b) || (a == b && lexLt as' bs')

/-- `split_second` (temporal_conversions.rs lines 143-146):
`(v.div_euclid(base), v.rem_euclid(base) as u32)`.  Rust's `div_euclid` /
`rem_euclid` are Euclidean division, which is what `/` and `%` on `Int` mean in
Lean; the `as u32` cast keeps the low 32 bits of the (non-negative) remainder. -/
def split_second (v base : Int) : Int × Nat :=
  (v / base, (v % base).toNat % 2 ^ 32)

def bufSet (buf : Nat → Nat) (i v : Nat) : Nat → Nat :=
  fun j => if j = i then v else buf j

def bufWrite : (Nat → Nat) → Nat → List Nat → Nat → Nat
  | buf, _, [] => buf
  | buf, pos, b :: bs => bufWrite (bufSet buf pos b) (pos + 1) bs

/-- The bytes `buf[pos .. pos+len)`. -/
def readRange (buf : Nat → Nat) (pos len : Nat) : List Nat :=
  (List.range len).map fun j => buf (pos + j)

/-- `Rows` (row/mod.rs): the byte arena and the per-row offsets. -/
structure Rows where
  buffer : Nat → Nat
  offsets : List Nat

/-- The `FixedLengthEncoding` trait (fixed.rs lines 46-54): a fixed payload
width, `encode` and `decode`.  `ENCODED_LEN = 1 + size_of(Encoded)`. -/
structure FixedLengthEncoding (α : Type) where
  width : Nat
  enc : α → List Nat
  dec : List Nat → α

def FixedLengthEncoding.encodedLen {α : Type} (c : FixedLengthEncoding α) : Nat :=
  1 + c.width

/-- The `encode_signed!` instances (`i8`/`i16`/`i32`/`i64`/`i128` are
`signedCodec 1/2/4/8/16`). -/
def signedCodec (n : Nat) : FixedLengthEncoding Int :=
  ⟨n, encodeSigned n, decodeSigned n⟩

/-- The `bool` instance of `FixedLengthEncoding` (fixed.rs lines 56-66):
`encode` is `[self as u8]` (one byte, `1` for true and `0` for false),
`decode` is `encoded[0] != 0`. -/
def boolCodec : FixedLengthEncoding Bool :=
  ⟨1, fun b => [if b then 1 else 0], fun bs => bs.headD 0 != 0⟩

/-- `u8/u16/u32/u64::encode` from the `encode_unsigned!` macro (fixed.rs lines
95-114): `self.to_be_bytes()`, the big-endian bytes of the value. -/
def encodeUnsigned (n : Nat) (v : Nat) : List Nat := toBeBytes n v

/-- `Self::from_be_bytes(encoded)` from the `encode_unsigned!` macro
(fixed.rs lines 104-106). -/
def decodeUnsigned (n : Nat) (bs : List Nat) : Nat := fromBeBytes bs

/-- The `encode_unsigned!` instances (`u8`/`u16`/`u32`/`u64` are
`unsignedCodec 1/2/4/8`). -/
def unsignedCodec (n : Nat) : FixedLengthEncoding Nat :=
  ⟨n, encodeUnsigned n, decodeUnsigned n⟩

/-- The `((s >> (W-1)) as uW) >> 1` term of the float instances (fixed.rs
lines 122, 128, 139, 145, 156, 162), as a function of the two's-complement
bit pattern `p` of `s` (`W = 8*n` bits): the arithmetic shift of `s` by `W-1`
is `-1` when `s` is negative (all-ones pattern, which cast to the unsigned
type and logically shifted right once is `2^(W-1) - 1`) and `0` otherwise;
`s` is negative exactly when the top bit of `p` is set, i.e. when
`2^(W-1) ≤ p`. -/
def signExtendMask (n : Nat) (p : Nat) : Nat :=
  if p < 2 ^ (8 * n - 1) then 0 else 2 ^ (8 * n - 1) - 1

/-- Reinterpret a bit pattern `p < 2^(8*n)` as a two's-complement signed
integer: the `as i16/i32/i64` casts of fixed.rs lines 121, 138, 155. -/
def toSignedInt (n : Nat) (p : Nat) : Int :=
  if p < 2 ^ (8 * n - 1) then (p : Int) else (p : Int) - 2 ^ (8 * n)

/-- `f16/f32/f64::encode` (fixed.rs lines 119-124, 136-141, 153-158),
acting on the float's IEEE bit pattern (`self.to_bits()` is the identity on
this representation): `let s = self.to_bits() as iN; let val = s ^ (((s >>
(W-1)) as uN) >> 1) as iN; val.encode()`.  Xor of signed integers is xor of
their bit patterns, so `val`'s bit pattern is `bits ^^^ signExtendMask`, and
`val.encode()` is the signed-integer encoding of that pattern read as a
two's-complement value. -/
def encodeFloat (n : Nat) (bits : Nat) : List Nat :=
  encodeSigned n (toSignedInt n (bits ^^^ signExtendMask n bits))

/-- `f16/f32/f64::decode` (fixed.rs lines 126-130, 143-147, 160-164): `let
bits = iN::decode(encoded); let val = bits ^ (((bits >> (W-1)) as uN) >> 1)
as iN; Self::from_bits(val as uN)`.  The result is the bit pattern `val as
uN` (`from_bits` is the identity on this representation); the mask is taken
from the sign of the decoded `bits`, i.e. from the top bit of its
two's-complement pattern `(bits mod 2^W)`. -/
def decodeFloat (n : Nat) (bs : List Nat) : Nat :=
  ((decodeSigned n bs) % 2 ^ (8 * n)).toNat ^^^
    signExtendMask n ((decodeSigned n bs) % 2 ^ (8 * n)).toNat

/-- The `f16`/`f32`/`f64` instances of `FixedLengthEncoding` (fixed.rs lines
116-165), on IEEE bit patterns: `floatCodec 2/4/8`. -/
def floatCodec (n : Nat) : FixedLengthEncoding Nat :=
  ⟨n, encodeFloat n, decodeFloat n⟩

/-- `RawDecimal<N>::encode` (fixed.rs lines 183-190) on the `N` raw
little-endian bytes: `val.reverse()` (to big-endian) then `val[0] ^= 0x80`
(toggle the top sign bit). -/
def encodeDecimal (bs : List Nat) : List Nat := xorTop bs.reverse

/-- `RawDecimal<N>::decode` (fixed.rs lines 192-196): `encoded[0] ^= 0x80`
then `encoded.reverse()` (back to little-endian). -/
def decodeDecimal (bs : List Nat) : List Nat := (xorTop bs).reverse

/-- The `RawDecimal<N>` instance of `FixedLengthEncoding` (fixed.rs lines
180-197); `RawDecimal128`/`RawDecimal256` are `decimalCodec 16/32`. -/
def decimalCodec (N : Nat) : FixedLengthEncoding (List Nat) :=
  ⟨N, encodeDecimal, decodeDecimal⟩

/-- Loop body of fixed.rs `encode` (lines 217-232) for one row: compute
`end_offset = offset + ENCODED_LEN`; for a present value write `1` then the
(bit-flipped when descending) payload; for null write only the null sentinel
byte; in both cases store `end_offset` back into the cursor. -/
def encodeCell {α : Type} (c : FixedLengthEncoding α) (opts : SortOptions)
    (buf : Nat → Nat) (offset : Nat) (mv : Option α) : (Nat → Nat) × Nat :=
  match mv with
  | some v =>
    let encoded := c.enc v
    let encoded := if opts.descending then encoded.map byteNot else encoded
    (bufWrite buf offset (1 :: encoded), offset + c.encodedLen)
  | none => (bufSet buf offset (null_sentinel opts), offset + c.encodedLen)

/-- The `for (offset, maybe_val) in out.offsets.iter_mut().skip(1).zip(i)` loop
of fixed.rs `encode`: runs `encodeCell` on each (cursor, value) pair, stopping
at the shorter list, and returns the updated buffer and cursor list. -/
def encodeLoop {α : Type} (c : FixedLengthEncoding α) (opts : SortOptions) :
    (Nat → Nat) → List Nat → List (Option α) → (Nat → Nat) × List Nat
  | buf, [], _ => (buf, [])
  | buf, offs, [] => (buf, offs)
  | buf, o :: offs, mv :: vs =>
    let r := encodeCell c opts buf o mv
    let rest := encodeLoop c opts r.1 offs vs
    (rest.1, r.2 :: rest.2)

/-- fixed.rs `encode` (lines 212-233): iterate over `offsets` skipping the
first entry. -/
def encode {α : Type} (c : FixedLengthEncoding α) (out : Rows)
    (vals : List (Option α)) (opts : SortOptions) : Rows :=
  match out.offsets with
  | [] => ⟨out.buffer, []⟩
  | o0 :: cursors =>
    let r := encodeLoop c opts out.buffer cursors vals
    ⟨r.1, o0 :: r.2⟩

/-- `FromSlice::from_slice` for `[u8; N]` (fixed.rs lines 33-42): copy the
slice, flipping every byte when `invert` is set. -/
def from_slice (s : List Nat) (invert : Bool) : List Nat :=
  if invert then s.map byteNot else s

/-- Per-row body of fixed.rs `decode_fixed` (lines 315-345): split off
`ENCODED_LEN` bytes; the row is valid iff byte 0 equals `1` (the source calls
this flag `null`; `null_count` counts its negation); the payload is
`from_slice(&i[1..], options.descending)` fed to `T::decode`.  The 64-row
chunking in the source only packs the validity bits into words; the per-row
computation is this one. -/
def decodeFixedCell {α : Type} (c : FixedLengthEncoding α) (opts : SortOptions)
    (row : List Nat) : (Bool × α) × List Nat :=
  let i := row.take c.encodedLen
  let rest := row.drop c.encodedLen
  ((i.headD 0 == 1, c.dec (from_slice (i.drop 1) opts.descending)), rest)

/-- fixed.rs `decode_fixed`, as the list of (validity bit, decoded value)
pairs over all rows (the source packs the bits into a null bitmap and the
values into a buffer, in this same row order). -/
def decode_fixed {α : Type} (c : FixedLengthEncoding α) (rows : List (List Nat))
    (opts : SortOptions) : List (Bool × α) :=
  rows.map fun r => (decodeFixedCell c opts r).1

/-- Modelled from the spec (§3 row buffer, §4.5): row `i` of a frozen `Rows`
is the byte range `buffer[offsets[i] .. offsets[i+1])`. -/
def rowSlices (r : Rows) : List (List Nat) :=
  (List.range (r.offsets.length - 1)).map fun i =>
    readRange r.buffer (r.offsets.getD i 0) (r.offsets.getD (i + 1) 0 - r.offsets.getD i 0)

/-- The cursor list `[s, s + L, s + 2L, ...]` of length `count`: the initial
write positions of the rows of a single fixed-width column of `ENCODED_LEN`
`L` (modelled from the spec §4.5: the offsets are the cumulative row
lengths). -/
def uniformCursors (L s count : Nat) : List Nat :=
  (List.range count).map fun i => s + i * L

/-- The payload written for a present value: bit-flipped when descending. -/
def writtenPayload {α : Type} (c : FixedLengthEncoding α) (opts : SortOptions)
    (v : α) : List Nat :=
  if opts.descending then (c.enc v).map byteNot else c.enc v

/-- Flip every byte of `buf[a .. b)` (the `out.buffer[*offset..end_offset]
.iter_mut().for_each(|v| *v = !*v)` post-pass of `encode_dictionary`). -/
def negateRange (buf : Nat → Nat) (a b : Nat) : Nat → Nat :=
  fun j => if a ≤ j ∧ j < b then byteNot (buf j) else buf j

/-- Loop body of `encode_dictionary` (dictionary.rs lines 70-89) for one row.
`mk` is the row's `k.and_then(|k| normalized_keys[k.as_usize()])`: `some
normalized_key` when the key is present and maps to a non-null normalized key,
`none` otherwise.  Present: write `1` then the normalized key bytes (which
carry their trailing terminator), bitwise-NOT the whole written range when
descending, and advance to `offset + 1 + len`.  Null: write the null sentinel
byte only and advance by 1. -/
def encodeDictCell (opts : SortOptions) (buf : Nat → Nat) (offset : Nat)
    (mk : Option (List Nat)) : (Nat → Nat) × Nat :=
  match mk with
  | some normalized_key =>
    let endOffset := offset + 1 + normalized_key.length
    let buf1 := bufWrite buf offset (1 :: normalized_key)
    let buf2 := if opts.descending then negateRange buf1 offset endOffset else buf1
    (buf2, endOffset)
  | none => (bufSet buf offset (null_sentinel opts), offset + 1)

/-- The `for (offset, k) in out.offsets.iter_mut().skip(1).zip(column.keys())`
loop of `encode_dictionary`, over the per-row `mk` values. -/
def encodeDictLoop (opts : SortOptions) :
    (Nat → Nat) → List Nat → List (Option (List Nat)) → (Nat → Nat) × List Nat
  | buf, [], _ => (buf, [])
  | buf, offs, [] => (buf, offs)
  | buf, o :: offs, mk :: ks =>
    let r := encodeDictCell opts buf o mk
    let rest := encodeDictLoop opts r.1 offs ks
    (rest.1, r.2 :: rest.2)

/-- dictionary.rs `encode_dictionary` (lines 64-90): per row `k = keys[row]`,
the written bytes are determined by `k.and_then(|k| normalized_keys[k])`. -/
def encode_dictionary (out : Rows) (keys : List (Option Nat))
    (normalized_keys : List (Option (List Nat))) (opts : SortOptions) : Rows :=
  match out.offsets with
  | [] => ⟨out.buffer, []⟩
  | o0 :: cursors =>
    let r := encodeDictLoop opts out.buffer cursors
      (keys.map fun k => k.bind fun kk => normalized_keys.getD kk none)
    ⟨r.1, o0 :: r.2⟩

/-- Modelled from the spec (§7 error taxonomy): the error type visible to the
decoder.  The source's `ArrowError` (arrow-schema, not under src/) contains
`DictionaryKeyOverflowError`; `malformedRow` is the variant the spec claims
for malformed rows (the source never constructs such a variant). -/
inductive RowError where
  | dictionaryKeyOverflow
  | malformedRow
deriving DecidableEq, Repr

/-- Outcome of a decode loop: normal result, tagged error (Rust `Err(...)`),
or `panic` (Rust `unwrap()` failure / out-of-bounds indexing). -/
inductive DecodeOutcome (σ : Type) where
  | ok (st : σ)
  | err (e : RowError)
  | panic
deriving DecidableEq, Repr

/-- The running state of the `decode_dictionary` row loop (dictionary.rs lines
104-118): the `HashMap<Interned, K::Native>` (as an association list with
newest entry first), the `values` vector of interner byte strings, the keys
builder, the null builder and the null count. -/
structure DictState where
  dict : List (Nat × Nat)
  values : List (List Nat)
  keys : List Nat
  nulls : List Bool
  null_count : Nat
deriving DecidableEq, Repr

def initDictState : DictState := ⟨[], [], [], [], 0⟩

def lookupAssoc : List (Nat × Nat) → Nat → Option Nat
  | [], _ => none
  | (k, v) :: rest, i => if i = k then some v else lookupAssoc rest i

/-- `K::Native::from_usize(k)` for the dictionary key type `K`: succeeds iff
`k` is below `cap`, the number of representable non-negative key values
(128 for `i8`, 256 for `u8`, 32768 for `i16`, ...). -/
def fromUsize (cap k : Nat) : Option Nat :=
  if k < cap then some k else none

/-- The negated-when-descending terminator byte (dictionary.rs lines 108-112). -/
def null_terminator (opts : SortOptions) : Nat :=
  if opts.descending then 255 else 0

/-- The row loop of `decode_dictionary` (dictionary.rs lines 120-164).
`cap` models the key type `K` via `fromUsize`; `lk` is the interner's
`lookup`; `vf` is `interner.value`.  Per row: `row[0]` (panic when the slice
is empty); the null sentinel records a null and the default key `0`;
otherwise scan `row[1..]` for the terminator (`unwrap` panic when absent),
take the key bytes including the terminator, un-negate them when descending,
`interner.lookup(..).unwrap()` (panic when absent), then assign a dense key
through the map, erroring with `DictionaryKeyOverflow` when
`K::Native::from_usize(values.len())` fails.  The advanced row remainder
(`*row = &row[..]`) feeds later columns and is not tracked here. -/
def decodeDictLoop (cap : Nat) (opts : SortOptions) (lk : List Nat → Option Nat)
    (vf : Nat → List Nat) : List (List Nat) → DictState → DecodeOutcome DictState
  | [], st => .ok st
  | row :: rest, st =>
    match row.head? with
    | none => .panic
    | some b0 =>
      if b0 = null_sentinel opts then
        decodeDictLoop cap opts lk vf rest
          { st with
            nulls := st.nulls ++ [false]
            null_count := st.null_count + 1
            keys := st.keys ++ [0] }
      else
        match (row.drop 1).findIdx? (fun x => x == null_terminator opts) with
        | none => .panic
        | some key_offset =>
          let key := (row.drop 1).take (key_offset + 1)
          let keyFixed := if opts.descending then key.map byteNot else key
          match lk keyFixed with
          | none => .panic
          | some interned =>
            match lookupAssoc st.dict interned with
            | some k =>
              decodeDictLoop cap opts lk vf rest
                { st with
                  keys := st.keys ++ [k]
                  nulls := st.nulls ++ [true] }
            | none =>
              match fromUsize cap st.values.length with
              | none => .err .dictionaryKeyOverflow
              | some key' =>
                decodeDictLoop cap opts lk vf rest
                  { st with
                    dict := (interned, key') :: st.dict
                    values := st.values ++ [vf interned]
                    keys := st.keys ++ [key']
                    nulls := st.nulls ++ [true] }

/-- The interned id a row resolves to (`none` for null rows or rows that would
panic): the pure reading used to state properties of `decodeDictLoop`. -/
def rowInterned (opts : SortOptions) (lk : List Nat → Option Nat)
    (row : List Nat) : Option Nat :=
  match row.head? with
  | none => none
  | some b0 =>
    if b0 = null_sentinel opts then none
    else
      match (row.drop 1).findIdx? (fun x => x == null_terminator opts) with
      | none => none
      | some key_offset =>
        let key := (row.drop 1).take (key_offset + 1)
        lk (if opts.descending then key.map byteNot else key)

/-- A row slice the decoder can consume without panicking: non-empty, and
either a null sentinel or a terminated key that the interner knows. -/
def wfRow (opts : SortOptions) (lk : List Nat → Option Nat) (row : List Nat) : Bool :=
  match row.head? with
  | none => false
  | some b0 =>
    b0 == null_sentinel opts ||
      match (row.drop 1).findIdx? (fun x => x == null_terminator opts) with
      | none => false
      | some key_offset =>
        (lk (if opts.descending then ((row.drop 1).take (key_offset + 1)).map byteNot
             else (row.drop 1).take (key_offset + 1))).isSome

/-- The offset advance of one dictionary row: 1 for null, `1 + len` for a
present normalized key. -/
def dictAdvance : Option (List Nat) → Nat
  | none => 1
  | some nk => 1 + nk.length

/-- Invariant of the decode loop's dictionary state: the assoc map knows
exactly the interned ids in `S`, and `values` has one entry per id. -/
def dictInv (st : DictState) (S : Finset Nat) : Prop :=
  (∀ i : Nat, ((lookupAssoc st.dict i).isSome = true) ↔ i ∈ S) ∧
  st.values.length = S.card

/-- The part of `ArrayData` that `decimal_equal` consumes: the first data
buffer (raw value bytes), the optional null bitmap (bit set = valid), and the
element offset. -/
structure DecArrayData where
  values : List Nat
  nulls : Option (List Bool)
  offset : Nat
deriving DecidableEq, Repr

/-- `arrow_buffer::bit_util::get_bit` on the already-expanded bit list. -/
def get_bit (bits : List Bool) (i : Nat) : Bool := bits.getD i false

/-- `contains_nulls(null_buffer, offset, len)` (arrow-data::data): no buffer
means no nulls, otherwise true iff some bit in `[offset, offset+len)` is
clear. -/
def contains_nulls (nb : Option (List Bool)) (start len : Nat) : Bool :=
  match nb with
  | none => false
  | some bits => (List.range len).any fun i => ! get_bit bits (start + i)

/-- Modelled from the spec: `equal_len` (equal/utils.rs, not under src/)
compares `len` bytes of the two value buffers starting at the given byte
positions. -/
def equal_len (lhs rhs : List Nat) (lhs_start rhs_start len : Nat) : Bool :=
  (List.range len).all fun i => lhs.getD (lhs_start + i) 0 == rhs.getD (rhs_start + i) 0

/-- `decimal_equal` (decimal.rs lines 24-73).  `size` is 16 for `Decimal128`
and 32 for `Decimal256` (the `match lhs.data_type()`).  Result `none` models
the panic of the `.unwrap()` calls on the null buffers (reachable only when
the caller violates the precondition stated in the source's comment). -/
def decimal_equal (size : Nat) (lhs rhs : DecArrayData)
    (lhs_start rhs_start len : Nat) : Option Bool :=
  let lhs_values := lhs.values.drop (lhs.offset * size)
  let rhs_values := rhs.values.drop (rhs.offset * size)
  if ! contains_nulls lhs.nulls (lhs_start + lhs.offset) len then
    some (equal_len lhs_values rhs_values (size * lhs_start) (size * rhs_start)
      (size * len))
  else
    match lhs.nulls, rhs.nulls with
    | some lhs_null_bytes, some rhs_null_bytes =>
      some ((List.range len).all fun i =>
        let lhs_pos := lhs_start + i
        let rhs_pos := rhs_start + i
        let lhs_is_null := ! get_bit lhs_null_bytes (lhs_pos + lhs.offset)
        let rhs_is_null := ! get_bit rhs_null_bytes (rhs_pos + rhs.offset)
        lhs_is_null || ((lhs_is_null == rhs_is_null) &&
          equal_len lhs_values rhs_values (lhs_pos * size) (rhs_pos * size) size))
    | _, _ => none

/-- Whether element `p` (before applying the offset) of the array is null. -/
def isNullAt (d : DecArrayData) (p : Nat) : Bool :=
  match d.nulls with
  | none => false
  | some bits => ! get_bit bits (p + d.offset)

/-- The round-trip property of one fixed-width column under a codec `c`:
encoding `vals` with fixed.rs `encode` into a fresh zeroed row buffer (the
cursors sit at the cumulative row offsets) and decoding the resulting row
slices with `decode_fixed` returns the original validity bitmap, and the
original value at every valid position. -/
def fixedRoundTrip {α : Type} (c : FixedLengthEncoding α) (opts : SortOptions)
    (vals : List (Option α)) : Prop :=
  ((decode_fixed c (rowSlices (encode c
      ⟨fun _ => 0, (0 : Nat) :: uniformCursors c.encodedLen 0 vals.length⟩
      vals opts)) opts).map Prod.fst = vals.map Option.isSome) ∧
  (∀ (i : Nat) (v : α), vals[i]? = some (some v) →
    (decode_fixed c (rowSlices (encode c
      ⟨fun _ => 0, (0 : Nat) :: uniformCursors c.encodedLen 0 vals.length⟩
      vals opts)) opts)[i]? = some (true, v))

/-! ## Theorems -/

theorem length_toBeBytes (n x : Nat) : (toBeBytes n x).length = n := by
  induction n generalizing x with
  | zero => rfl
  | succ n ih => simp [toBeBytes, ih]

theorem toBeBytes_lt (n x : Nat) : ∀ b ∈ toBeBytes n x, b < 256 := by
  induction n generalizing x with
  | zero => simp [toBeBytes]
  | succ n ih =>
    intro b hb
    simp only [toBeBytes, List.mem_cons] at hb
    rcases hb with h | h
    · subst h; exact Nat.mod_lt _ (by norm_num)
    · exact ih _ b h

theorem fromBeBytes_toBeBytes (n x : Nat) :
    fromBeBytes (toBeBytes n x) = x % 256 ^ n := by
  induction n generalizing x with
  | zero => simp [toBeBytes, fromBeBytes, Nat.mod_one]
  | succ n ih =>
    simp only [toBeBytes, fromBeBytes, length_toBeBytes, ih]
    have h1 : x % 256 ^ (n + 1) / 256 ^ n = x / 256 ^ n % 256 := by
      rw [pow_succ]; exact Nat.mod_mul_right_div_self x (256 ^ n) 256
    have h2 : x % 256 ^ (n + 1) % 256 ^ n = x % 256 ^ n :=
      Nat.mod_mod_of_dvd x (by rw [pow_succ]; exact dvd_mul_right _ _)
    have h3 : x % 256 ^ n % 256 ^ n = x % 256 ^ n :=
      Nat.mod_mod_of_dvd x dvd_rfl
    calc x / 256 ^ n % 256 * 256 ^ n + x % 256 ^ n % 256 ^ n
        = x % 256 ^ (n + 1) / 256 ^ n * 256 ^ n + x % 256 ^ (n + 1) % 256 ^ n := by
          rw [h1, h2, h3]
      _ = x % 256 ^ (n + 1) := Nat.div_add_mod' _ _

theorem digit_lt_iff (q a b c d : Nat) (hb : b < q) (hd : d < q) :
    a * q + b < c * q + d ↔ a < c ∨ (a = c ∧ b < d) := by
  constructor
  · intro h
    rcases Nat.lt_trichotomy a c with h1 | h1 | h1
    · exact Or.inl h1
    · subst h1; right; exact ⟨rfl, by omega⟩
    · exfalso
      have hle : c * q + d < a * q + b := by
        calc c * q + d < c * q + q := by omega
          _ = (c + 1) * q := by ring
          _ ≤ a * q := Nat.mul_le_mul_right q h1
          _ ≤ a * q + b := Nat.le_add_right _ _
      omega
  · rintro (h | ⟨rfl, h⟩)
    · calc a * q + b < a * q + q := by omega
        _ = (a + 1) * q := by ring
        _ ≤ c * q := Nat.mul_le_mul_right q h
        _ ≤ c * q + d := Nat.le_add_right _ _
    · omega

theorem lexLt_toBeBytes (n x y : Nat) (hx : x < 256 ^ n) (hy : y < 256 ^ n) :
    (lexLt (toBeBytes n x) (toBeBytes n y) = true) ↔ x < y := by
  induction n generalizing x y with
  | zero =>
    simp only [pow_zero, Nat.lt_one_iff] at hx hy
    subst hx; subst hy
    simp [toBeBytes, lexLt]
  | succ n ih =>
    have hq : 0 < 256 ^ n := Nat.pos_pow_of_pos _ (by norm_num)
    have hx' : x / 256 ^ n < 256 := by
      rw [Nat.div_lt_iff_lt_mul hq]
      rw [pow_succ] at hx; omega
    have hy' : y / 256 ^ n < 256 := by
      rw [Nat.div_lt_iff_lt_mul hq]
      rw [pow_succ] at hy; omega
    have key := digit_lt_iff (256 ^ n) (x / 256 ^ n) (x % 256 ^ n)
      (y / 256 ^ n) (y % 256 ^ n) (Nat.mod_lt x hq) (Nat.mod_lt y hq)
    rw [Nat.div_add_mod' x (256 ^ n), Nat.div_add_mod' y (256 ^ n)] at key
    simp only [toBeBytes, lexLt, Bool.or_eq_true, Bool.and_eq_true,
      decide_eq_true_eq, beq_iff_eq, Nat.mod_eq_of_lt hx', Nat.mod_eq_of_lt hy',
      ih (x % 256 ^ n) (y % 256 ^ n) (Nat.mod_lt x hq) (Nat.mod_lt y hq)]
    rw [key]

set_option maxRecDepth 16384 in
theorem xor128_eq (b : Nat) (hb : b < 256) :
    b ^^^ 128 = if b < 128 then b + 128 else b - 128 := by
  revert b
  decide

theorem pow256_eq (n : Nat) : 256 ^ n = 2 ^ (8 * n) := by
  rw [show (256 : Nat) = 2 ^ 8 by norm_num, ← pow_mul]

theorem half_eq (n : Nat) : 2 ^ (8 * (n + 1) - 1) = 128 * 256 ^ n := by
  rw [pow256_eq, show 8 * (n + 1) - 1 = 7 + 8 * n by omega, pow_add]
  norm_num

theorem full256_eq (n : Nat) : 256 ^ (n + 1) = 2 * (128 * 256 ^ n) := by
  rw [pow_succ]; ring

theorem xorTop_toBeBytes (n m : Nat) (hm : m < 256 ^ (n + 1)) :
    xorTop (toBeBytes (n + 1) m) =
      toBeBytes (n + 1)
        (if m < 128 * 256 ^ n then m + 128 * 256 ^ n else m - 128 * 256 ^ n) := by
  have hq : 0 < 256 ^ n := Nat.pos_pow_of_pos _ (by norm_num)
  have hm2 : m < 256 ^ n * 256 := by rw [pow_succ] at hm; exact hm
  have hb : m / 256 ^ n < 256 := by rw [Nat.div_lt_iff_lt_mul hq]; omega
  have hdivlt : m / 256 ^ n < 128 ↔ m < 128 * 256 ^ n := Nat.div_lt_iff_lt_mul hq
  by_cases hc : m < 128 * 256 ^ n
  · have hd128 : m / 256 ^ n < 128 := hdivlt.mpr hc
    have e1 : (m + 128 * 256 ^ n) / 256 ^ n = m / 256 ^ n + 128 :=
      Nat.add_mul_div_right m 128 hq
    have e2 : (m + 128 * 256 ^ n) % 256 ^ n = m % 256 ^ n :=
      Nat.add_mul_mod_self_right m 128 (256 ^ n)
    have e3 : m / 256 ^ n ^^^ 128 = m / 256 ^ n + 128 := by
      rw [xor128_eq _ hb, if_pos hd128]
    simp only [if_pos hc, toBeBytes, xorTop, e1, e2]
    rw [Nat.mod_eq_of_lt hb, e3, Nat.mod_eq_of_lt (by omega : m / 256 ^ n + 128 < 256)]
  · have hd128 : ¬ m / 256 ^ n < 128 := fun h => hc (hdivlt.mp h)
    have hge : 256 ^ n * 128 ≤ m := by omega
    have e1 : (m - 256 ^ n * 128) / 256 ^ n = m / 256 ^ n - 128 :=
      Nat.sub_mul_div m (256 ^ n) 128 hge
    have e2 : (m - 256 ^ n * 128) % 256 ^ n = m % 256 ^ n :=
      Nat.sub_mul_mod hge
    have e3 : m / 256 ^ n ^^^ 128 = m / 256 ^ n - 128 := by
      rw [xor128_eq _ hb, if_neg hd128]
    have hcomm : m - 128 * 256 ^ n = m - 256 ^ n * 128 := by ring_nf
    simp only [if_neg hc, toBeBytes, xorTop, hcomm, e1, e2]
    rw [Nat.mod_eq_of_lt hb, e3, Nat.mod_eq_of_lt (by omega : m / 256 ^ n - 128 < 256)]

theorem emod_two_pow_of_range (n : Nat) (v : Int) (h : inSignedRange (n + 1) v) :
    (v % ((2 : Int) ^ (8 * (n + 1)))).toNat =
      if 0 ≤ v then v.toNat else (v + 2 ^ (8 * (n + 1))).toNat := by
  obtain ⟨h1, h2⟩ := h
  have hexp1 : 8 * (n + 1) - 1 = 8 * n + 7 := by omega
  rw [hexp1] at h1 h2
  have hfull : (2 : Int) ^ (8 * (n + 1)) = 2 * 2 ^ (8 * n + 7) := by
    rw [show 8 * (n + 1) = (8 * n + 7) + 1 by omega, pow_succ]; ring
  rw [hfull]
  have hH : (0 : Int) < 2 ^ (8 * n + 7) := by positivity
  by_cases hv : 0 ≤ v
  · rw [if_pos hv, Int.emod_eq_of_lt hv (by omega)]
  · rw [if_neg hv]
    have hmod : v % (2 * 2 ^ (8 * n + 7)) =
        (v + 2 * 2 ^ (8 * n + 7)) % (2 * 2 ^ (8 * n + 7)) := by
      conv_rhs =>
        rw [show v + 2 * 2 ^ (8 * n + 7) = v + 2 * 2 ^ (8 * n + 7) * 1 by ring,
          Int.add_mul_emod_self_left]
    rw [hmod, Int.emod_eq_of_lt (by omega) (by omega)]

theorem encodeSigned_eq_toBeBytes (n : Nat) (v : Int) (h : inSignedRange (n + 1) v) :
    encodeSigned (n + 1) v = toBeBytes (n + 1) ((v + 2 ^ (8 * (n + 1) - 1)).toNat) := by
  obtain ⟨h1, h2⟩ := h
  have hhalfI : (2 : Int) ^ (8 * (n + 1) - 1) = ((128 * 256 ^ n : Nat) : Int) := by
    exact_mod_cast congrArg (fun x : Nat => (x : Int)) (half_eq n)
  have hfullI : (2 : Int) ^ (8 * (n + 1)) = ((2 * (128 * 256 ^ n) : Nat) : Int) := by
    have hnat : (2 : Nat) ^ (8 * (n + 1)) = 2 * (128 * 256 ^ n) := by
      rw [← pow256_eq]; exact full256_eq n
    calc (2 : Int) ^ (8 * (n + 1)) = ((2 ^ (8 * (n + 1)) : Nat) : Int) := by push_cast; ring
      _ = ((2 * (128 * 256 ^ n) : Nat) : Int) := by rw [hnat]
  unfold encodeSigned
  rw [emod_two_pow_of_range n v ⟨h1, h2⟩]
  rw [hhalfI] at h1 h2 ⊢
  by_cases hv : 0 ≤ v
  · rw [if_pos hv]
    have hbound : v.toNat < 256 ^ (n + 1) := by rw [full256_eq]; omega
    rw [xorTop_toBeBytes n _ hbound, if_pos (by omega : v.toNat < 128 * 256 ^ n)]
    congr 1
    omega
  · rw [if_neg hv, hfullI]
    have hbound : (v + ((2 * (128 * 256 ^ n) : Nat) : Int)).toNat < 256 ^ (n + 1) := by
      rw [full256_eq]; omega
    rw [xorTop_toBeBytes n _ hbound,
      if_neg (by omega : ¬ (v + ((2 * (128 * 256 ^ n) : Nat) : Int)).toNat < 128 * 256 ^ n)]
    congr 1
    omega

theorem xorTop_xorTop (l : List Nat) : xorTop (xorTop l) = l := by
  cases l with
  | nil => rfl
  | cons b rest =>
    simp [xorTop, Nat.xor_assoc, Nat.xor_self, Nat.xor_zero]

theorem length_xorTop (l : List Nat) : (xorTop l).length = l.length := by
  cases l <;> rfl

theorem length_encodeSigned (n : Nat) (v : Int) : (encodeSigned n v).length = n := by
  unfold encodeSigned
  rw [length_xorTop, length_toBeBytes]

theorem encodeSigned_bytes_lt (n : Nat) (v : Int) :
    ∀ b ∈ encodeSigned n v, b < 256 := by
  unfold encodeSigned
  cases hn : toBeBytes n ((v % 2 ^ (8 * n)).toNat) with
  | nil => simp [xorTop]
  | cons b rest =>
    intro x hx
    have hall := toBeBytes_lt n ((v % 2 ^ (8 * n)).toNat)
    rw [hn] at hall
    simp only [xorTop, List.mem_cons] at hx
    rcases hx with h | h
    · subst h
      have hb : b < 256 := hall b (List.mem_cons_self _ _)
      rw [xor128_eq b hb]
      split_ifs <;> omega
    · exact hall x (List.mem_cons_of_mem _ h)

theorem decodeSigned_encodeSigned (n : Nat) (v : Int) (hn : 1 ≤ n)
    (h : inSignedRange n v) :
    decodeSigned n (encodeSigned n v) = v := by
  obtain ⟨m, rfl⟩ : ∃ m, n = m + 1 := ⟨n - 1, by omega⟩
  have hhalfI : (2 : Int) ^ (8 * (m + 1) - 1) = ((128 * 256 ^ m : Nat) : Int) := by
    exact_mod_cast congrArg (fun x : Nat => (x : Int)) (half_eq m)
  have hfullI : (2 : Int) ^ (8 * (m + 1)) = ((2 * (128 * 256 ^ m) : Nat) : Int) := by
    have hnat : (2 : Nat) ^ (8 * (m + 1)) = 2 * (128 * 256 ^ m) := by
      rw [← pow256_eq]; exact full256_eq m
    calc (2 : Int) ^ (8 * (m + 1)) = ((2 ^ (8 * (m + 1)) : Nat) : Int) := by push_cast; ring
      _ = ((2 * (128 * 256 ^ m) : Nat) : Int) := by rw [hnat]
  rw [encodeSigned_eq_toBeBytes m v h]
  obtain ⟨h1, h2⟩ := h
  rw [hhalfI] at h1 h2
  unfold decodeSigned
  rw [hhalfI, hfullI, half_eq m]
  have hMbound : (v + ((128 * 256 ^ m : Nat) : Int)).toNat < 256 ^ (m + 1) := by
    rw [full256_eq]; omega
  rw [xorTop_toBeBytes m _ hMbound, fromBeBytes_toBeBytes]
  by_cases hv : 0 ≤ v
  · rw [if_neg (by omega : ¬ (v + ((128 * 256 ^ m : Nat) : Int)).toNat < 128 * 256 ^ m)]
    rw [Nat.mod_eq_of_lt (by rw [full256_eq]; omega)]
    rw [if_pos (by omega :
      (v + ((128 * 256 ^ m : Nat) : Int)).toNat - 128 * 256 ^ m < 128 * 256 ^ m)]
    omega
  · rw [if_pos (by omega : (v + ((128 * 256 ^ m : Nat) : Int)).toNat < 128 * 256 ^ m)]
    rw [Nat.mod_eq_of_lt (by rw [full256_eq]; omega)]
    rw [if_neg (by omega :
      ¬ (v + ((128 * 256 ^ m : Nat) : Int)).toNat + 128 * 256 ^ m < 128 * 256 ^ m)]
    omega

theorem lexLt_encodeSigned (n : Nat) (hn : 1 ≤ n) (a b : Int)
    (ha : inSignedRange n a) (hb : inSignedRange n b) :
    (lexLt (encodeSigned n a) (encodeSigned n b) = true) ↔ a < b := by
  obtain ⟨m, rfl⟩ : ∃ m, n = m + 1 := ⟨n - 1, by omega⟩
  have hhalfI : (2 : Int) ^ (8 * (m + 1) - 1) = ((128 * 256 ^ m : Nat) : Int) := by
    exact_mod_cast congrArg (fun x : Nat => (x : Int)) (half_eq m)
  rw [encodeSigned_eq_toBeBytes m a ha, encodeSigned_eq_toBeBytes m b hb]
  obtain ⟨ha1, ha2⟩ := ha
  obtain ⟨hb1, hb2⟩ := hb
  rw [hhalfI] at ha1 ha2 hb1 hb2 ⊢
  have hba : (a + ((128 * 256 ^ m : Nat) : Int)).toNat < 256 ^ (m + 1) := by
    rw [full256_eq]; omega
  have hbb : (b + ((128 * 256 ^ m : Nat) : Int)).toNat < 256 ^ (m + 1) := by
    rw [full256_eq]; omega
  rw [lexLt_toBeBytes (m + 1) _ _ hba hbb]
  omega

theorem bufWrite_apply_out (bs : List Nat) (buf : Nat → Nat) (pos j : Nat)
    (h : j < pos ∨ pos + bs.length ≤ j) : bufWrite buf pos bs j = buf j := by
  induction bs generalizing buf pos with
  | nil => rfl
  | cons b bs ih =>
    simp only [List.length_cons] at h
    simp only [bufWrite]
    rw [ih _ _ (by omega)]
    unfold bufSet
    rw [if_neg (by omega)]

theorem bufWrite_apply_in (bs : List Nat) (buf : Nat → Nat) (pos j : Nat)
    (h : j < bs.length) : bufWrite buf pos bs (pos + j) = bs.getD j 0 := by
  induction bs generalizing buf pos j with
  | nil => simp at h
  | cons b bs ih =>
    cases j with
    | zero =>
      simp only [bufWrite]
      rw [bufWrite_apply_out bs _ (pos + 1) (pos + 0) (Or.inl (by omega))]
      unfold bufSet
      rw [if_pos (by omega)]
      rfl
    | succ j =>
      simp only [bufWrite]
      rw [show pos + (j + 1) = (pos + 1) + j by omega,
        ih _ _ _ (by simpa using h)]
      rfl

theorem length_readRange (buf : Nat → Nat) (pos len : Nat) :
    (readRange buf pos len).length = len := by
  simp [readRange]

theorem readRange_congr (buf1 buf2 : Nat → Nat) (pos len : Nat)
    (h : ∀ j, j < len → buf1 (pos + j) = buf2 (pos + j)) :
    readRange buf1 pos len = readRange buf2 pos len := by
  unfold readRange
  apply List.map_congr_left
  intro j hj
  exact h j (List.mem_range.mp hj)

theorem readRange_succ (buf : Nat → Nat) (pos len : Nat) :
    readRange buf pos (len + 1) = buf pos :: readRange buf (pos + 1) len := by
  unfold readRange
  rw [List.range_succ_eq_map, List.map_cons, List.map_map]
  congr 1
  apply List.map_congr_left
  intro j hj
  simp [Function.comp]
  congr 1
  omega

theorem readRange_bufWrite (buf : Nat → Nat) (pos : Nat) (bs : List Nat) :
    readRange (bufWrite buf pos bs) pos bs.length = bs := by
  apply List.ext_getElem
  · simp [readRange]
  · intro i h1 h2
    simp only [readRange, List.getElem_map, List.getElem_range]
    rw [bufWrite_apply_in bs buf pos i h2]
    exact List.getD_eq_getElem bs 0 h2

theorem null_sentinel_ne_one (opts : SortOptions) : null_sentinel opts ≠ 1 := by
  unfold null_sentinel
  split_ifs <;> omega

theorem encodeCell_frame {α : Type} (c : FixedLengthEncoding α) (opts : SortOptions)
    (buf : Nat → Nat) (o : Nat) (mv : Option α) (j : Nat) (h : j < o) :
    (encodeCell c opts buf o mv).1 j = buf j := by
  cases mv with
  | some v =>
    exact bufWrite_apply_out _ _ _ _ (Or.inl h)
  | none =>
    unfold encodeCell bufSet
    simp only
    rw [if_neg (by omega)]

theorem uniformCursors_succ (L s count : Nat) :
    uniformCursors L s (count + 1) = s :: uniformCursors L (s + L) count := by
  unfold uniformCursors
  rw [List.range_succ_eq_map, List.map_cons, List.map_map]
  congr 1
  · omega
  · apply List.map_congr_left
    intro j hj
    simp [Function.comp]
    ring

theorem uniformCursors_le (L s count : Nat) :
    ∀ o ∈ uniformCursors L s count, s ≤ o := by
  intro o ho
  unfold uniformCursors at ho
  simp only [List.mem_map, List.mem_range] at ho
  obtain ⟨i, _, rfl⟩ := ho
  omega

theorem encodeLoop_frame {α : Type} (c : FixedLengthEncoding α) (opts : SortOptions)
    (offs : List Nat) (vals : List (Option α)) (buf : Nat → Nat) (m : Nat)
    (h : ∀ o ∈ offs, m ≤ o) :
    ∀ j, j < m → (encodeLoop c opts buf offs vals).1 j = buf j := by
  induction offs generalizing buf vals with
  | nil => intro j hj; cases vals <;> rfl
  | cons o offs ih =>
    intro j hj
    cases vals with
    | nil => rfl
    | cons mv vs =>
      simp only [encodeLoop]
      rw [ih vs _ (fun x hx => h x (List.mem_cons_of_mem _ hx)) j hj]
      exact encodeCell_frame c opts buf o mv j
        (lt_of_lt_of_le hj (h o (List.mem_cons_self _ _)))

theorem length_writtenPayload {α : Type} (c : FixedLengthEncoding α)
    (opts : SortOptions) (v : α) (h : (c.enc v).length = c.width) :
    (writtenPayload c opts v).length = c.width := by
  unfold writtenPayload
  split_ifs <;> simp [h]

theorem encodeLoop_spec {α : Type} (c : FixedLengthEncoding α) (opts : SortOptions)
    (vals : List (Option α))
    (hw : ∀ v, some v ∈ vals → (c.enc v).length = c.width) :
    ∀ (buf : Nat → Nat) (s : Nat),
      (encodeLoop c opts buf (uniformCursors c.encodedLen s vals.length) vals).2 =
        uniformCursors c.encodedLen (s + c.encodedLen) vals.length ∧
      ∀ i, i < vals.length →
        match vals.getD i none with
        | some v =>
          readRange (encodeLoop c opts buf (uniformCursors c.encodedLen s vals.length) vals).1
            (s + i * c.encodedLen) c.encodedLen = 1 :: writtenPayload c opts v
        | none =>
          (encodeLoop c opts buf (uniformCursors c.encodedLen s vals.length) vals).1
            (s + i * c.encodedLen) = null_sentinel opts := by
  induction vals with
  | nil =>
    intro buf s
    refine ⟨rfl, ?_⟩
    intro i hi
    simp at hi
  | cons mv vs ih =>
    intro buf s
    have hw' : ∀ v, some v ∈ vs → (c.enc v).length = c.width :=
      fun v hv => hw v (List.mem_cons_of_mem _ hv)
    simp only [List.length_cons]
    rw [uniformCursors_succ]
    simp only [encodeLoop]
    set r := encodeCell c opts buf s mv with hr
    obtain ⟨ihOff, ihContent⟩ := ih hw' r.1 (s + c.encodedLen)
    have hr2 : r.2 = s + c.encodedLen := by
      rw [hr]; cases mv <;> rfl
    constructor
    · rw [uniformCursors_succ, ihOff, hr2]
    · intro i hi
      cases i with
      | zero =>
        have hframe : ∀ j, j < s + c.encodedLen →
            (encodeLoop c opts r.1 (uniformCursors c.encodedLen (s + c.encodedLen) vs.length) vs).1 j
              = r.1 j :=
          encodeLoop_frame c opts _ vs r.1 (s + c.encodedLen)
            (uniformCursors_le _ _ _)
        cases mv with
        | some v =>
          simp only [List.getD_cons_zero]
          rw [Nat.zero_mul, Nat.add_zero]
          rw [readRange_congr _ r.1 s c.encodedLen
            (fun j hj => hframe (s + j) (by omega))]
          have hlen : (1 :: writtenPayload c opts v).length = c.encodedLen := by
            simp only [List.length_cons, FixedLengthEncoding.encodedLen,
              length_writtenPayload c opts v (hw v (List.mem_cons_self _ _))]
            omega
          rw [hr]
          show readRange (encodeCell c opts buf s (some v)).1 s c.encodedLen
            = 1 :: writtenPayload c opts v
          unfold encodeCell
          simp only
          rw [← hlen]
          exact readRange_bufWrite buf s (1 :: writtenPayload c opts v)
        | none =>
          simp only [List.getD_cons_zero]
          rw [Nat.zero_mul, Nat.add_zero]
          rw [hframe s (by unfold FixedLengthEncoding.encodedLen; omega)]
          rw [hr]
          show (encodeCell c opts buf s none).1 s = null_sentinel opts
          unfold encodeCell bufSet
          simp
      | succ i =>
        have hstep : s + (i + 1) * c.encodedLen = (s + c.encodedLen) + i * c.encodedLen := by
          ring
        have := ihContent i (by omega)
        simp only [List.getD_cons_succ]
        rw [hstep]
        exact this

theorem byteNot_byteNot (b : Nat) (h : b < 256) : byteNot (byteNot b) = b := by
  unfold byteNot
  omega

theorem from_slice_writtenPayload {α : Type} (c : FixedLengthEncoding α)
    (opts : SortOptions) (v : α) (hbytes : ∀ b ∈ c.enc v, b < 256) :
    from_slice (writtenPayload c opts v) opts.descending = c.enc v := by
  unfold from_slice writtenPayload
  split_ifs with h1
  · rw [List.map_map]
    conv_rhs => rw [← List.map_id (c.enc v)]
    apply List.map_congr_left
    intro b hb
    simp [Function.comp, byteNot_byteNot b (hbytes b hb)]
  · rfl

theorem encodedLen_eq {α : Type} (c : FixedLengthEncoding α) :
    c.encodedLen = c.width + 1 := by
  unfold FixedLengthEncoding.encodedLen
  omega

theorem decodeFixedCell_valid {α : Type} (c : FixedLengthEncoding α)
    (opts : SortOptions) (v : α) (hlen : (c.enc v).length = c.width)
    (hbytes : ∀ b ∈ c.enc v, b < 256) :
    (decodeFixedCell c opts (1 :: writtenPayload c opts v)).1 = (true, c.dec (c.enc v)) := by
  unfold decodeFixedCell
  simp only
  have hlw : (writtenPayload c opts v).length = c.width :=
    length_writtenPayload c opts v hlen
  have htake : (1 :: writtenPayload c opts v).take c.encodedLen
      = 1 :: writtenPayload c opts v := by
    apply List.take_of_length_le
    simp only [List.length_cons, hlw, FixedLengthEncoding.encodedLen]
    omega
  rw [htake]
  simp only [List.headD_cons, List.drop_succ_cons, List.drop_zero]
  rw [from_slice_writtenPayload c opts v hbytes]
  simp

theorem decodeFixedCell_fst_fst {α : Type} (c : FixedLengthEncoding α)
    (opts : SortOptions) (row : List Nat) :
    ((decodeFixedCell c opts row).1).1 = (row.headD 0 == 1) := by
  unfold decodeFixedCell
  simp only
  cases row with
  | nil => simp [List.take_nil]
  | cons b t =>
    rw [encodedLen_eq, List.take_succ_cons]
    rfl

theorem length_uniformCursors (L s count : Nat) :
    (uniformCursors L s count).length = count := by
  simp [uniformCursors]

theorem getD_uniformCursors (L s count i : Nat) (h : i < count) :
    (uniformCursors L s count).getD i 0 = s + i * L := by
  unfold uniformCursors
  rw [List.getD_eq_getElem _ _ (by simpa using h)]
  simp

theorem offsets_getD (L count i : Nat) (h : i ≤ count) :
    ((0 : Nat) :: uniformCursors L L count).getD i 0 = i * L := by
  cases i with
  | zero => simp
  | succ j =>
    simp only [List.getD_cons_succ]
    rw [getD_uniformCursors L L count j (by omega)]
    ring

theorem rowSlices_cursor_buf (buf : Nat → Nat) (L count : Nat) :
    rowSlices ⟨buf, (0 : Nat) :: uniformCursors L L count⟩
      = (List.range count).map fun i => readRange buf (i * L) L := by
  unfold rowSlices
  simp only [List.length_cons, length_uniformCursors, Nat.add_sub_cancel]
  apply List.map_congr_left
  intro i hi
  have hi' := List.mem_range.mp hi
  rw [offsets_getD L count i (by omega), offsets_getD L count (i + 1) (by omega)]
  have hmul : (i + 1) * L = i * L + L := by ring
  congr 1
  omega

theorem decode_encode_fixed {α : Type} (c : FixedLengthEncoding α) (opts : SortOptions)
    (vals : List (Option α))
    (hw : ∀ v, some v ∈ vals → (c.enc v).length = c.width)
    (hbytes : ∀ v, some v ∈ vals → ∀ b ∈ c.enc v, b < 256)
    (hdec : ∀ v, some v ∈ vals → c.dec (c.enc v) = v) :
    ((decode_fixed c (rowSlices (encode c
        ⟨fun _ => 0, (0 : Nat) :: uniformCursors c.encodedLen 0 vals.length⟩
        vals opts)) opts).map Prod.fst = vals.map Option.isSome) ∧
    (∀ (i : Nat) (v : α), vals[i]? = some (some v) →
      (decode_fixed c (rowSlices (encode c
        ⟨fun _ => 0, (0 : Nat) :: uniformCursors c.encodedLen 0 vals.length⟩
        vals opts)) opts)[i]? = some (true, v)) := by
  obtain ⟨hoff, hcontent⟩ := encodeLoop_spec c opts vals hw (fun _ => 0) 0
  simp only [Nat.zero_add] at hoff hcontent
  have henc : encode c ⟨fun _ => 0, (0 : Nat) :: uniformCursors c.encodedLen 0 vals.length⟩
        vals opts
      = ⟨(encodeLoop c opts (fun _ => 0) (uniformCursors c.encodedLen 0 vals.length) vals).1,
         0 :: (encodeLoop c opts (fun _ => 0) (uniformCursors c.encodedLen 0 vals.length) vals).2⟩ :=
    rfl
  rw [henc, hoff]
  rw [rowSlices_cursor_buf _ c.encodedLen vals.length]
  have hcell : ∀ i, i < vals.length →
      (decodeFixedCell c opts (readRange
          (encodeLoop c opts (fun _ => 0) (uniformCursors c.encodedLen 0 vals.length) vals).1
          (i * c.encodedLen) c.encodedLen)).1
        = match vals.getD i none with
          | some v => (true, c.dec (c.enc v))
          | none => ((false : Bool),
              (decodeFixedCell c opts (readRange
                (encodeLoop c opts (fun _ => 0) (uniformCursors c.encodedLen 0 vals.length) vals).1
                (i * c.encodedLen) c.encodedLen)).1.2) := by
    intro i hi
    have h := hcontent i hi
    cases hv : vals.getD i none with
    | some v =>
      rw [hv] at h
      have hmem : some v ∈ vals := by
        have he : vals[i] = some v := by
          rw [← List.getD_eq_getElem vals none hi, hv]
        exact he ▸ List.getElem_mem hi
      rw [h]
      exact decodeFixedCell_valid c opts v (hw v hmem) (hbytes v hmem)
    | none =>
      rw [hv] at h
      have hhead : (readRange
          (encodeLoop c opts (fun _ => 0) (uniformCursors c.encodedLen 0 vals.length) vals).1
          (i * c.encodedLen) c.encodedLen).headD 0 = null_sentinel opts := by
        rw [encodedLen_eq] at h ⊢
        rw [readRange_succ, List.headD_cons]
        exact h
      have hfst : ((decodeFixedCell c opts (readRange
          (encodeLoop c opts (fun _ => 0) (uniformCursors c.encodedLen 0 vals.length) vals).1
          (i * c.encodedLen) c.encodedLen)).1).1 = false := by
        rw [decodeFixedCell_fst_fst, hhead]
        exact beq_eq_false_iff_ne.mpr (null_sentinel_ne_one opts)
      rw [← hfst]
  constructor
  · apply List.ext_getElem
    · simp [decode_fixed]
    · intro i h1 h2
      have hi : i < vals.length := by simpa using h2
      simp only [decode_fixed, List.map_map, List.getElem_map, List.getElem_range]
      have hc := hcell i hi
      rw [List.getD_eq_getElem vals none hi] at hc
      cases hv : vals[i] with
      | some v =>
        rw [hv] at hc
        simp only [Function.comp]
        rw [hc]
        rfl
      | none =>
        rw [hv] at hc
        simp only [Function.comp]
        rw [hc]
        rfl
  · intro i v hiv
    obtain ⟨hi, hvi⟩ : ∃ h : i < vals.length, vals[i] = some v :=
      List.getElem?_eq_some.mp hiv
    have hmem : some v ∈ vals := hvi ▸ List.getElem_mem hi
    simp only [decode_fixed, List.map_map]
    rw [List.getElem?_eq_getElem (by simpa using hi)]
    simp only [Function.comp, List.getElem_map, List.getElem_range]
    have hc := hcell i hi
    rw [List.getD_eq_getElem vals none hi, hvi] at hc
    rw [hc]
    show some (true, c.dec (c.enc v)) = some (true, v)
    rw [hdec v hmem]

theorem encodeCell_none_eq {α : Type} (c : FixedLengthEncoding α) (opts : SortOptions)
    (buf : Nat → Nat) (offset : Nat) :
    encodeCell c opts buf offset none
      = (bufSet buf offset (null_sentinel opts), offset + c.encodedLen) := rfl

theorem halfI_eq (m : Nat) :
    (2 : Int) ^ (8 * (m + 1) - 1) = ((128 * 256 ^ m : Nat) : Int) := by
  exact_mod_cast congrArg (fun x : Nat => (x : Int)) (half_eq m)

theorem fullI_eq (m : Nat) :
    (2 : Int) ^ (8 * (m + 1)) = ((2 * (128 * 256 ^ m) : Nat) : Int) := by
  have hnat : (2 : Nat) ^ (8 * (m + 1)) = 2 * (128 * 256 ^ m) := by
    rw [← pow256_eq]; exact full256_eq m
  calc (2 : Int) ^ (8 * (m + 1)) = ((2 ^ (8 * (m + 1)) : Nat) : Int) := by push_cast; ring
    _ = ((2 * (128 * 256 ^ m) : Nat) : Int) := by rw [hnat]

theorem fromBeBytes_replicate_zero (m : Nat) :
    fromBeBytes (List.replicate m 0) = 0 := by
  induction m with
  | zero => rfl
  | succ m ih => simp [List.replicate_succ, fromBeBytes, ih]

theorem fromBeBytes_replicate_255 (m : Nat) :
    fromBeBytes (List.replicate m 255) = 256 ^ m - 1 := by
  induction m with
  | zero => rfl
  | succ m ih =>
    have hp : 0 < (256 : Nat) ^ m := Nat.pos_pow_of_pos _ (by norm_num)
    simp only [List.replicate_succ, fromBeBytes, List.length_replicate, ih]
    rw [pow_succ]
    ring_nf
    omega

theorem decodeUnsigned_encodeUnsigned (n v : Nat) (hv : v < 2 ^ (8 * n)) :
    decodeUnsigned n (encodeUnsigned n v) = v := by
  unfold decodeUnsigned encodeUnsigned
  rw [fromBeBytes_toBeBytes, Nat.mod_eq_of_lt (by rw [pow256_eq]; exact hv)]

theorem lt_two_pow_iff_testBit (j x : Nat) (hx : x < 2 ^ (j + 1)) :
    x < 2 ^ j ↔ x.testBit j = false := by
  constructor
  · exact fun h => Nat.testBit_lt_two_pow h
  · intro h
    by_contra hlt
    have hge : 2 ^ j ≤ x := Nat.le_of_not_lt hlt
    have hpos : 0 < 2 ^ j := Nat.pos_pow_of_pos _ (by norm_num)
    have hd : x / 2 ^ j = 1 := by
      have h1 : 1 ≤ x / 2 ^ j := (Nat.one_le_div_iff hpos).mpr hge
      have h2 : x / 2 ^ j < 2 := by
        rw [Nat.div_lt_iff_lt_mul hpos]
        rw [pow_succ] at hx
        omega
      omega
    rw [Nat.testBit_to_div_mod, hd] at h
    simp at h

theorem xor_mask_lt_iff (j a m : Nat) (ha : a < 2 ^ (j + 1)) (hm : m < 2 ^ j) :
    (a ^^^ m < 2 ^ j) ↔ a < 2 ^ j := by
  have hm2 : m < 2 ^ (j + 1) :=
    lt_of_lt_of_le hm (Nat.pow_le_pow_right (by norm_num) (by omega))
  have hx : a ^^^ m < 2 ^ (j + 1) := Nat.xor_lt_two_pow ha hm2
  rw [lt_two_pow_iff_testBit j _ hx, lt_two_pow_iff_testBit j a ha,
    Nat.testBit_xor, Nat.testBit_lt_two_pow hm]
  simp

theorem signExtendMask_lt (n p : Nat) : signExtendMask n p < 2 ^ (8 * n - 1) := by
  unfold signExtendMask
  have h : 0 < 2 ^ (8 * n - 1) := Nat.pos_pow_of_pos _ (by norm_num)
  split_ifs <;> omega

theorem signExtendMask_congr (n a b : Nat)
    (h : a < 2 ^ (8 * n - 1) ↔ b < 2 ^ (8 * n - 1)) :
    signExtendMask n a = signExtendMask n b := by
  unfold signExtendMask
  by_cases hc : b < 2 ^ (8 * n - 1)
  · rw [if_pos hc, if_pos (h.mpr hc)]
  · rw [if_neg hc, if_neg (fun hh => hc (h.mp hh))]

theorem toSignedInt_range (n : Nat) (hn : 1 ≤ n) (p : Nat) (hp : p < 2 ^ (8 * n)) :
    inSignedRange n (toSignedInt n p) := by
  obtain ⟨m, rfl⟩ : ∃ m, n = m + 1 := ⟨n - 1, by omega⟩
  have hhalfN : (2 : Nat) ^ (8 * (m + 1) - 1) = 128 * 256 ^ m := half_eq m
  have hfullN : (2 : Nat) ^ (8 * (m + 1)) = 2 * (128 * 256 ^ m) := by
    rw [← pow256_eq]; exact full256_eq m
  rw [hfullN] at hp
  unfold toSignedInt inSignedRange
  rw [hhalfN, halfI_eq m, fullI_eq m]
  split_ifs with h <;> constructor <;> omega

theorem toSignedInt_emod (n : Nat) (hn : 1 ≤ n) (p : Nat) (hp : p < 2 ^ (8 * n)) :
    ((toSignedInt n p) % ((2 : Int) ^ (8 * n))).toNat = p := by
  obtain ⟨m, rfl⟩ : ∃ m, n = m + 1 := ⟨n - 1, by omega⟩
  have hr := toSignedInt_range (m + 1) (by omega) p hp
  rw [emod_two_pow_of_range m _ hr]
  have hhalfN : (2 : Nat) ^ (8 * (m + 1) - 1) = 128 * 256 ^ m := half_eq m
  have hfullN : (2 : Nat) ^ (8 * (m + 1)) = 2 * (128 * 256 ^ m) := by
    rw [← pow256_eq]; exact full256_eq m
  rw [hfullN] at hp
  by_cases hc : p < 2 ^ (8 * (m + 1) - 1)
  · rw [show toSignedInt (m + 1) p = (p : Int) from by
      unfold toSignedInt; rw [if_pos hc]]
    rw [if_pos (Int.natCast_nonneg p)]
    omega
  · rw [show toSignedInt (m + 1) p = (p : Int) - 2 ^ (8 * (m + 1)) from by
      unfold toSignedInt; rw [if_neg hc]]
    rw [fullI_eq m]
    rw [if_neg (by omega)]
    omega

theorem decodeFloat_encodeFloat (n : Nat) (hn : 1 ≤ n) (bits : Nat)
    (hb : bits < 2 ^ (8 * n)) :
    decodeFloat n (encodeFloat n bits) = bits := by
  have hj : 8 * n = (8 * n - 1) + 1 := by omega
  have hmask : signExtendMask n bits < 2 ^ (8 * n - 1) := signExtendMask_lt n bits
  have hq : bits ^^^ signExtendMask n bits < 2 ^ (8 * n) := by
    rw [hj]
    exact Nat.xor_lt_two_pow (hj ▸ hb)
      (lt_of_lt_of_le hmask (Nat.pow_le_pow_right (by norm_num) (by omega)))
  have htop : (bits ^^^ signExtendMask n bits < 2 ^ (8 * n - 1))
      ↔ bits < 2 ^ (8 * n - 1) :=
    xor_mask_lt_iff (8 * n - 1) bits _ (hj ▸ hb) hmask
  unfold encodeFloat decodeFloat
  rw [decodeSigned_encodeSigned n _ hn (toSignedInt_range n hn _ hq),
    toSignedInt_emod n hn _ hq]
  rw [signExtendMask_congr n _ bits htop, Nat.xor_assoc, Nat.xor_self, Nat.xor_zero]

theorem decodeDecimal_encodeDecimal (bs : List Nat) :
    decodeDecimal (encodeDecimal bs) = bs := by
  unfold decodeDecimal encodeDecimal
  rw [xorTop_xorTop, List.reverse_reverse]

theorem length_encodeDecimal (bs : List Nat) :
    (encodeDecimal bs).length = bs.length := by
  unfold encodeDecimal
  rw [length_xorTop, List.length_reverse]

theorem xorTop_bytes_lt (l : List Nat) (h : ∀ b ∈ l, b < 256) :
    ∀ b ∈ xorTop l, b < 256 := by
  cases l with
  | nil => simp [xorTop]
  | cons a rest =>
    intro x hx
    simp only [xorTop, List.mem_cons] at hx
    rcases hx with hx | hx
    · subst hx
      have ha : a < 256 := h a (List.mem_cons_self _ _)
      rw [xor128_eq a ha]
      split_ifs <;> omega
    · exact h x (List.mem_cons_of_mem _ hx)

theorem encodeDecimal_bytes_lt (bs : List Nat) (h : ∀ b ∈ bs, b < 256) :
    ∀ b ∈ encodeDecimal bs, b < 256 := by
  unfold encodeDecimal
  exact xorTop_bytes_lt _ (fun b hb => h b (List.mem_reverse.mp hb))

/-- C1: round-trip for every fixed-width primitive codec of fixed.rs.
Encoding a column of optional values (nulls included, any `SortOptions`) with
fixed.rs `encode` into a fresh row buffer and decoding the resulting row
slices with `decode_fixed` yields the original null bitmap (validity bits)
and the original value at every valid position, for: the signed-integer
codecs (`i8/i16/i32/i64/i128`, any width `n ≥ 1`, the full two's-complement
range including min and max), the unsigned-integer codecs (`u8/u16/u32/u64`,
the full range including 0 and max), `bool`, the float codecs
(`f16/f32/f64`, every IEEE bit pattern, NaNs included), and `RawDecimal<N>`
(any width, every raw byte string). -/
theorem C1_fixed_roundtrip :
    (∀ (n : Nat), 1 ≤ n → ∀ (opts : SortOptions) (vals : List (Option Int)),
      (∀ v, some v ∈ vals → inSignedRange n v) →
      fixedRoundTrip (signedCodec n) opts vals) ∧
    (∀ (n : Nat) (opts : SortOptions) (vals : List (Option Nat)),
      (∀ v, some v ∈ vals → v < 2 ^ (8 * n)) →
      fixedRoundTrip (unsignedCodec n) opts vals) ∧
    (∀ (opts : SortOptions) (vals : List (Option Bool)),
      fixedRoundTrip boolCodec opts vals) ∧
    (∀ (n : Nat), 1 ≤ n → ∀ (opts : SortOptions) (vals : List (Option Nat)),
      (∀ v, some v ∈ vals → v < 2 ^ (8 * n)) →
      fixedRoundTrip (floatCodec n) opts vals) ∧
    (∀ (N : Nat) (opts : SortOptions) (vals : List (Option (List Nat))),
      (∀ v, some v ∈ vals → v.length = N ∧ ∀ b ∈ v, b < 256) →
      fixedRoundTrip (decimalCodec N) opts vals) := by
  refine ⟨?_, ?_, ?_, ?_, ?_⟩
  · intro n hn opts vals hv
    exact decode_encode_fixed (signedCodec n) opts vals
      (fun v _ => length_encodeSigned n v)
      (fun v _ => encodeSigned_bytes_lt n v)
      (fun v hv' => decodeSigned_encodeSigned n v hn (hv v hv'))
  · intro n opts vals hv
    exact decode_encode_fixed (unsignedCodec n) opts vals
      (fun v _ => length_toBeBytes n v)
      (fun v _ => toBeBytes_lt n v)
      (fun v hv' => decodeUnsigned_encodeUnsigned n v (hv v hv'))
  · intro opts vals
    exact decode_encode_fixed boolCodec opts vals
      (fun v _ => by cases v <;> rfl)
      (fun v _ => by
        intro b hb
        have hb' : b ∈ [if v then 1 else 0] := hb
        cases v <;> simp at hb' <;> omega)
      (fun v _ => by cases v <;> rfl)
  · intro n hn opts vals hv
    exact decode_encode_fixed (floatCodec n) opts vals
      (fun v _ => length_encodeSigned n _)
      (fun v _ => encodeSigned_bytes_lt n _)
      (fun v hv' => decodeFloat_encodeFloat n hn v (hv v hv'))
  · intro N opts vals hv
    exact decode_encode_fixed (decimalCodec N) opts vals
      (fun v hv' => (length_encodeDecimal v).trans (hv v hv').1)
      (fun v hv' => encodeDecimal_bytes_lt v (hv v hv').2)
      (fun v _ => decodeDecimal_encodeDecimal v)

/-- Witness for C1 at concrete inputs, one per codec family: `i8` values
(min, null, max), `u16` values (0, null, max), bools with a null, an `f32`
bit pattern (that of -1.0) with a null, and a 2-byte raw decimal with a
null. -/
theorem C1_fixed_roundtrip_witness :
    fixedRoundTrip (signedCodec 1) ⟨false, true⟩ [some (-128), none, some 127] ∧
    fixedRoundTrip (unsignedCodec 2) ⟨true, false⟩ [some 0, none, some 65535] ∧
    fixedRoundTrip boolCodec ⟨false, false⟩ [some true, none, some false] ∧
    fixedRoundTrip (floatCodec 4) ⟨true, true⟩ [some 3212836864, none] ∧
    fixedRoundTrip (decimalCodec 2) ⟨false, true⟩ [some [7, 200], none] :=
  ⟨C1_fixed_roundtrip.1 1 (by norm_num) ⟨false, true⟩ [some (-128), none, some 127]
    (by
      intro v hv
      simp only [List.mem_cons, List.not_mem_nil, or_false] at hv
      rcases hv with h | h | h
      · have hh := Option.some.inj h
        subst hh
        decide
      · exact absurd h (by simp)
      · have hh := Option.some.inj h
        subst hh
        decide),
   C1_fixed_roundtrip.2.1 2 ⟨true, false⟩ [some 0, none, some 65535]
    (by
      intro v hv
      simp only [List.mem_cons, List.not_mem_nil, or_false] at hv
      rcases hv with h | h | h
      · have hh := Option.some.inj h
        subst hh
        norm_num
      · exact absurd h (by simp)
      · have hh := Option.some.inj h
        subst hh
        norm_num),
   C1_fixed_roundtrip.2.2.1 ⟨false, false⟩ [some true, none, some false],
   C1_fixed_roundtrip.2.2.2.1 4 (by norm_num) ⟨true, true⟩ [some 3212836864, none]
    (by
      intro v hv
      simp only [List.mem_cons, List.not_mem_nil, or_false] at hv
      rcases hv with h | h
      · have hh := Option.some.inj h
        subst hh
        norm_num
      · exact absurd h (by simp)),
   C1_fixed_roundtrip.2.2.2.2 2 ⟨false, true⟩ [some [7, 200], none]
    (by
      intro v hv
      simp only [List.mem_cons, List.not_mem_nil, or_false] at hv
      rcases hv with h | h
      · have hh := Option.some.inj h
        subst hh
        decide
      · exact absurd h (by simp))⟩

/-- C3 counterexample: encoding a null `i8` value advances the row offset by
`ENCODED_LEN = 2`, not by 1 as the claim states (fixed.rs line 231 stores
`end_offset` unconditionally). -/
theorem C3_counterexample :
    (encodeCell (signedCodec 1) ⟨false, false⟩ (fun _ => 0) 0 none).2 = 2 ∧
    (encodeCell (signedCodec 1) ⟨false, false⟩ (fun _ => 0) 0 none).2 ≠ 1 := by
  constructor
  · rfl
  · decide

/-- C3 amended: for a null value the encoder writes exactly the single null
sentinel byte (every other buffer position is untouched), but advances the
row's offset by the full `ENCODED_LEN = 1 + width`, not by 1. -/
theorem C3_amended {α : Type} (c : FixedLengthEncoding α) (opts : SortOptions)
    (buf : Nat → Nat) (offset : Nat) :
    (encodeCell c opts buf offset none).1 offset = null_sentinel opts ∧
    (∀ j, j ≠ offset → (encodeCell c opts buf offset none).1 j = buf j) ∧
    (encodeCell c opts buf offset none).2 = offset + (1 + c.width) := by
  refine ⟨?_, ?_, rfl⟩
  · rw [encodeCell_none_eq]
    unfold bufSet
    simp
  · intro j hj
    rw [encodeCell_none_eq]
    unfold bufSet
    simp only
    rw [if_neg hj]

/-- Witness for C3 amended at a concrete input. -/
theorem C3_amended_witness :
    (encodeCell (signedCodec 1) ⟨false, false⟩ (fun _ => 0) 0 none).1 0
        = null_sentinel ⟨false, false⟩ ∧
    (∀ j, j ≠ 0 →
      (encodeCell (signedCodec 1) ⟨false, false⟩ (fun _ => 0) 0 none).1 j
        = (fun _ => (0 : Nat)) j) ∧
    (encodeCell (signedCodec 1) ⟨false, false⟩ (fun _ => 0) 0 none).2
        = 0 + (1 + (signedCodec 1).width) :=
  C3_amended (signedCodec 1) ⟨false, false⟩ (fun _ => 0) 0

/-- C7: the signed fixed-width encoding (big-endian bytes of the
two's-complement pattern with the top bit of byte 0 toggled, `encodeSigned`)
is strictly monotone: for every width `n ≥ 1` and in-range `a`, `b`,
`a < b` iff `encodeSigned a` is unsigned-lexicographically below
`encodeSigned b`; and the `i8` values `[-1, 0, 1]` encode to payloads
`[0x7F, 0x80, 0x81]`. -/
theorem C7_signed_monotone :
    (∀ (n : Nat), 1 ≤ n → ∀ (a b : Int), inSignedRange n a → inSignedRange n b →
      ((lexLt (encodeSigned n a) (encodeSigned n b) = true) ↔ a < b)) ∧
    encodeSigned 1 (-1) = [0x7F] ∧
    encodeSigned 1 0 = [0x80] ∧
    encodeSigned 1 1 = [0x81] := by
  refine ⟨fun n hn a b ha hb => lexLt_encodeSigned n hn a b ha hb, ?_, ?_, ?_⟩
  · decide
  · decide
  · decide

/-- Witness for C7 at a concrete input: width 2, `-3 < 7`. -/
theorem C7_signed_monotone_witness :
    (lexLt (encodeSigned 2 (-3)) (encodeSigned 2 7) = true) ↔ ((-3 : Int) < 7) :=
  C7_signed_monotone.1 2 (by norm_num) (-3) 7 (by decide) (by decide)

/-- C4 counterexample: `split_second` does not satisfy the Euclidean
decomposition for every `base > 0`: at `v = 2^32`, `base = 2^32 + 1` the
`as u32` cast truncates the remainder to 0 and `s*base + f = 0 ≠ v`. -/
theorem C4_counterexample :
    ¬ ((split_second 4294967296 4294967297).1 * 4294967297 +
        ((split_second 4294967296 4294967297).2 : Int) = 4294967296 ∧
       0 ≤ ((split_second 4294967296 4294967297).2 : Int) ∧
       ((split_second 4294967296 4294967297).2 : Int) < 4294967297) := by
  intro h
  have h1 := h.1
  norm_num [split_second] at h1

/-- C4 amended: for every `v : i64` and every `base` with `0 < base ≤ 2^32`
(the `as u32` cast truncates the remainder for larger bases, so the spec's
"every base > 0" must be weakened), `split_second v base = (s, f)` satisfies
`s * base + f = v` and `0 ≤ f < base`; in particular
`split_second (-123_000_000_001) 1_000_000_000 = (-124, 999_999_999)`. -/
theorem C4_amended (v base : Int) (hb : 0 < base) (hb32 : base ≤ 2 ^ 32) :
    ((split_second v base).1 * base + ((split_second v base).2 : Int) = v ∧
     0 ≤ ((split_second v base).2 : Int) ∧
     ((split_second v base).2 : Int) < base) ∧
    split_second (-123000000001) 1000000000 = (-124, 999999999) := by
  constructor
  · have hmodnn : 0 ≤ v % base := Int.emod_nonneg v (by omega)
    have hmodlt : v % base < base := Int.emod_lt_of_pos v hb
    have hdm := Int.ediv_add_emod v base
    unfold split_second
    simp only
    have ht : (((v % base).toNat % 2 ^ 32 : Nat) : Int) = v % base := by
      rw [Nat.mod_eq_of_lt (by omega)]
      omega
    rw [ht]
    exact ⟨by rw [Int.mul_comm]; exact hdm, hmodnn, hmodlt⟩
  · decide

/-- Witness for C4 amended at the spec's concrete input. -/
theorem C4_amended_witness :
    ((split_second (-123000000001) 1000000000).1 * 1000000000 +
        ((split_second (-123000000001) 1000000000).2 : Int) = -123000000001 ∧
     0 ≤ ((split_second (-123000000001) 1000000000).2 : Int) ∧
     ((split_second (-123000000001) 1000000000).2 : Int) < 1000000000) ∧
    split_second (-123000000001) 1000000000 = (-124, 999999999) :=
  C4_amended (-123000000001) 1000000000 (by norm_num) (by norm_num)

theorem decodeSigned_replicate_zero (m : Nat) :
    decodeSigned (m + 1) (List.replicate (m + 1) 0) = -(2 ^ (8 * (m + 1) - 1)) := by
  unfold decodeSigned
  rw [List.replicate_succ]
  simp only [xorTop, Nat.zero_xor, fromBeBytes, List.length_replicate,
    fromBeBytes_replicate_zero, Nat.add_zero]
  rw [half_eq m, if_neg (lt_irrefl _), fullI_eq m, halfI_eq m]
  omega

theorem decodeSigned_replicate_255 (m : Nat) :
    decodeSigned (m + 1) (List.replicate (m + 1) 255) = 2 ^ (8 * (m + 1) - 1) - 1 := by
  unfold decodeSigned
  rw [List.replicate_succ]
  simp only [xorTop, fromBeBytes, List.length_replicate, fromBeBytes_replicate_255]
  have hx : (255 : Nat) ^^^ 128 = 127 := by decide
  rw [hx]
  have hp : 0 < (256 : Nat) ^ m := Nat.pos_pow_of_pos _ (by norm_num)
  rw [half_eq m, if_pos (by omega), halfI_eq m]
  have : (127 : Nat) * 256 ^ m + (256 ^ m - 1) = 128 * 256 ^ m - 1 := by omega
  rw [this]
  omega

theorem decodeUnsigned_replicate_zero (n : Nat) :
    decodeUnsigned n (List.replicate n 0) = 0 :=
  fromBeBytes_replicate_zero n

theorem decodeUnsigned_replicate_255 (n : Nat) :
    decodeUnsigned n (List.replicate n 255) = 2 ^ (8 * n) - 1 := by
  unfold decodeUnsigned
  rw [fromBeBytes_replicate_255, pow256_eq]

theorem two_pow_xor_pred (j : Nat) : 2 ^ j ^^^ (2 ^ j - 1) = 2 ^ (j + 1) - 1 := by
  apply Nat.eq_of_testBit_eq
  intro i
  rw [Nat.testBit_xor, Nat.testBit_two_pow, Nat.testBit_two_pow_sub_one,
    Nat.testBit_two_pow_sub_one]
  rcases Nat.lt_trichotomy i j with h | h | h
  · rw [decide_eq_false (by omega : ¬ j = i), decide_eq_true h,
      decide_eq_true (by omega : i < j + 1)]
    rfl
  · subst h
    rw [decide_eq_true rfl, decide_eq_false (by omega : ¬ i < i),
      decide_eq_true (by omega : i < i + 1)]
    rfl
  · rw [decide_eq_false (by omega : ¬ j = i), decide_eq_false (by omega : ¬ i < j),
      decide_eq_false (by omega : ¬ i < j + 1)]
    rfl

theorem decodeFloat_replicate_zero (m : Nat) :
    decodeFloat (m + 1) (List.replicate (m + 1) 0) = 2 ^ (8 * (m + 1)) - 1 := by
  unfold decodeFloat
  rw [decodeSigned_replicate_zero m]
  have hpos : (0 : Int) < 2 ^ (8 * (m + 1) - 1) := by positivity
  have hp : ((-(2 ^ (8 * (m + 1) - 1)) : Int) % 2 ^ (8 * (m + 1))).toNat
      = 2 ^ (8 * (m + 1) - 1) := by
    have hfull : (2 : Int) ^ (8 * (m + 1)) = ((2 * (128 * 256 ^ m) : Nat) : Int) :=
      fullI_eq m
    rw [emod_two_pow_of_range m (-(2 ^ (8 * (m + 1) - 1)))
      ⟨le_refl _, by rw [halfI_eq m] at hpos ⊢; omega⟩]
    rw [if_neg (by omega)]
    rw [halfI_eq m, fullI_eq m, half_eq m]
    omega
  rw [hp]
  have hm : signExtendMask (m + 1) (2 ^ (8 * (m + 1) - 1)) = 2 ^ (8 * (m + 1) - 1) - 1 := by
    unfold signExtendMask
    rw [if_neg (lt_irrefl _)]
  rw [hm, two_pow_xor_pred, show 8 * (m + 1) - 1 + 1 = 8 * (m + 1) from by omega]

theorem decodeFloat_replicate_255 (m : Nat) :
    decodeFloat (m + 1) (List.replicate (m + 1) 255) = 2 ^ (8 * (m + 1) - 1) - 1 := by
  unfold decodeFloat
  rw [decodeSigned_replicate_255 m]
  have hposN : 0 < (2 : Nat) ^ (8 * (m + 1) - 1) := Nat.pos_pow_of_pos _ (by norm_num)
  have hpos : (0 : Int) < 2 ^ (8 * (m + 1) - 1) := by positivity
  have hp : (((2 ^ (8 * (m + 1) - 1) - 1 : Int)) % 2 ^ (8 * (m + 1))).toNat
      = 2 ^ (8 * (m + 1) - 1) - 1 := by
    rw [emod_two_pow_of_range m (2 ^ (8 * (m + 1) - 1) - 1)
      ⟨by omega, by omega⟩]
    rw [if_pos (by omega)]
    rw [halfI_eq m, half_eq m]
    omega
  rw [hp]
  have hm : signExtendMask (m + 1) (2 ^ (8 * (m + 1) - 1) - 1) = 0 := by
    unfold signExtendMask
    rw [if_pos (by omega)]
  rw [hm, Nat.xor_zero]

theorem decodeDecimal_replicate_zero (m : Nat) :
    decodeDecimal (List.replicate (m + 1) 0) = List.replicate m 0 ++ [128] := by
  unfold decodeDecimal
  rw [List.replicate_succ]
  simp only [xorTop, Nat.zero_xor, List.reverse_cons, List.reverse_replicate]

theorem decodeDecimal_replicate_255 (m : Nat) :
    decodeDecimal (List.replicate (m + 1) 255) = List.replicate m 255 ++ [127] := by
  unfold decodeDecimal
  rw [List.replicate_succ]
  have hx : (255 : Nat) ^^^ 128 = 127 := by decide
  simp only [xorTop, hx, List.reverse_cons, List.reverse_replicate]

theorem from_slice_replicate_zero (w : Nat) (desc : Bool) :
    from_slice (List.replicate w 0) desc
      = if desc then List.replicate w 255 else List.replicate w 0 := by
  unfold from_slice
  cases desc with
  | false => simp
  | true => simp [List.map_replicate, byteNot]

theorem decodeFixedCell_encodeCell_none {α : Type} (c : FixedLengthEncoding α)
    (opts : SortOptions) (buf : Nat → Nat) (offset : Nat) (hzero : ∀ j, buf j = 0) :
    (decodeFixedCell c opts
      (readRange (encodeCell c opts buf offset none).1 offset c.encodedLen)).1
    = ((false : Bool), c.dec (from_slice (List.replicate c.width 0) opts.descending)) := by
  have hc1 : (encodeCell c opts buf offset none).1
      = bufSet buf offset (null_sentinel opts) := rfl
  rw [hc1]
  have hL : c.encodedLen = c.width + 1 := encodedLen_eq c
  rw [hL, readRange_succ]
  have hhead : bufSet buf offset (null_sentinel opts) offset = null_sentinel opts := by
    unfold bufSet
    simp
  have htail : readRange (bufSet buf offset (null_sentinel opts)) (offset + 1) c.width
      = List.replicate c.width 0 := by
    apply List.ext_getElem
    · simp [readRange]
    · intro i h1 h2
      simp only [readRange, List.getElem_map, List.getElem_range, List.getElem_replicate]
      unfold bufSet
      rw [if_neg (by omega)]
      exact hzero _
  rw [hhead, htail]
  unfold decodeFixedCell
  simp only
  have htake : (null_sentinel opts :: List.replicate c.width 0).take c.encodedLen
      = null_sentinel opts :: List.replicate c.width 0 := by
    apply List.take_of_length_le
    rw [hL]
    simp
  rw [htake]
  simp only [List.headD_cons, List.drop_succ_cons, List.drop_zero]
  have hflag : (null_sentinel opts == 1) = false :=
    beq_eq_false_iff_ne.mpr (null_sentinel_ne_one opts)
  rw [hflag]

/-- C8 counterexample: decoding the bytes written for a null `i8` slot (over a
zero-initialized buffer, ascending) clears the validity bit but stores `-128`,
not the type's zero value, at that position. -/
theorem C8_counterexample :
    (decodeFixedCell (signedCodec 1) ⟨false, false⟩
      (readRange (encodeCell (signedCodec 1) ⟨false, false⟩ (fun _ => 0) 0 none).1 0
        (signedCodec 1).encodedLen)).1 = (false, -128) ∧ ((-128 : Int) ≠ 0) := by
  constructor
  · decide
  · decide

/-- C8 amended: for every fixed-width null row the decoder clears the
corresponding null-bitmap bit, but the value stored at that position is the
codec's decode of the raw payload bytes left in the row (re-inverted when
descending), not the type's zero.  Over the zero-initialized buffer the
encoder leaves a zero payload, which decodes to: the type's minimum
(ascending) / maximum (descending) for the signed-integer codecs; `0`
(ascending) / the maximum `2^W - 1` (descending) for the unsigned codecs; the
all-ones NaN bit pattern `2^W - 1` (ascending) / the NaN bit pattern
`2^(W-1) - 1` (descending) for the float codecs; and the little-endian bytes
`0,...,0,0x80` = the most negative value (ascending) / `0xFF,...,0xFF,0x7F` =
the largest value (descending) for `RawDecimal<N>`. -/
theorem C8_amended :
    (∀ (α : Type) (c : FixedLengthEncoding α) (opts : SortOptions) (buf : Nat → Nat)
        (offset : Nat), (∀ j, buf j = 0) →
      (decodeFixedCell c opts
        (readRange (encodeCell c opts buf offset none).1 offset c.encodedLen)).1
      = ((false : Bool), c.dec (from_slice (List.replicate c.width 0) opts.descending))) ∧
    (∀ (n : Nat), 1 ≤ n → ∀ (opts : SortOptions) (buf : Nat → Nat) (offset : Nat),
      (∀ j, buf j = 0) →
      (decodeFixedCell (signedCodec n) opts
        (readRange (encodeCell (signedCodec n) opts buf offset none).1 offset
          (signedCodec n).encodedLen)).1
      = ((false : Bool),
         if opts.descending then 2 ^ (8 * n - 1) - 1 else -(2 ^ (8 * n - 1)))) ∧
    (∀ (n : Nat) (opts : SortOptions) (buf : Nat → Nat) (offset : Nat),
      (∀ j, buf j = 0) →
      (decodeFixedCell (unsignedCodec n) opts
        (readRange (encodeCell (unsignedCodec n) opts buf offset none).1 offset
          (unsignedCodec n).encodedLen)).1
      = ((false : Bool), if opts.descending then 2 ^ (8 * n) - 1 else 0)) ∧
    (∀ (n : Nat), 1 ≤ n → ∀ (opts : SortOptions) (buf : Nat → Nat) (offset : Nat),
      (∀ j, buf j = 0) →
      (decodeFixedCell (floatCodec n) opts
        (readRange (encodeCell (floatCodec n) opts buf offset none).1 offset
          (floatCodec n).encodedLen)).1
      = ((false : Bool),
         if opts.descending then 2 ^ (8 * n - 1) - 1 else 2 ^ (8 * n) - 1)) ∧
    (∀ (N : Nat), 1 ≤ N → ∀ (opts : SortOptions) (buf : Nat → Nat) (offset : Nat),
      (∀ j, buf j = 0) →
      (decodeFixedCell (decimalCodec N) opts
        (readRange (encodeCell (decimalCodec N) opts buf offset none).1 offset
          (decimalCodec N).encodedLen)).1
      = ((false : Bool),
         if opts.descending then List.replicate (N - 1) 255 ++ [127]
         else List.replicate (N - 1) 0 ++ [128])) := by
  refine ⟨?_, ?_, ?_, ?_, ?_⟩
  · intro α c opts buf offset hzero
    exact decodeFixedCell_encodeCell_none c opts buf offset hzero
  · intro n hn opts buf offset hzero
    obtain ⟨m, rfl⟩ : ∃ m, n = m + 1 := ⟨n - 1, by omega⟩
    rw [decodeFixedCell_encodeCell_none (signedCodec (m + 1)) opts buf offset hzero,
      show (signedCodec (m + 1)).width = m + 1 from rfl,
      show (signedCodec (m + 1)).dec = decodeSigned (m + 1) from rfl,
      from_slice_replicate_zero]
    cases hd : opts.descending with
    | false =>
      rw [if_neg Bool.false_ne_true, if_neg Bool.false_ne_true,
        decodeSigned_replicate_zero m]
    | true =>
      rw [if_pos rfl, if_pos rfl, decodeSigned_replicate_255 m]
  · intro n opts buf offset hzero
    rw [decodeFixedCell_encodeCell_none (unsignedCodec n) opts buf offset hzero,
      show (unsignedCodec n).width = n from rfl,
      show (unsignedCodec n).dec = decodeUnsigned n from rfl,
      from_slice_replicate_zero]
    cases hd : opts.descending with
    | false =>
      rw [if_neg Bool.false_ne_true, if_neg Bool.false_ne_true,
        decodeUnsigned_replicate_zero n]
    | true =>
      rw [if_pos rfl, if_pos rfl, decodeUnsigned_replicate_255 n]
  · intro n hn opts buf offset hzero
    obtain ⟨m, rfl⟩ : ∃ m, n = m + 1 := ⟨n - 1, by omega⟩
    rw [decodeFixedCell_encodeCell_none (floatCodec (m + 1)) opts buf offset hzero,
      show (floatCodec (m + 1)).width = m + 1 from rfl,
      show (floatCodec (m + 1)).dec = decodeFloat (m + 1) from rfl,
      from_slice_replicate_zero]
    cases hd : opts.descending with
    | false =>
      rw [if_neg Bool.false_ne_true, if_neg Bool.false_ne_true,
        decodeFloat_replicate_zero m]
    | true =>
      rw [if_pos rfl, if_pos rfl, decodeFloat_replicate_255 m]
  · intro N hN opts buf offset hzero
    obtain ⟨M, rfl⟩ : ∃ M, N = M + 1 := ⟨N - 1, by omega⟩
    rw [decodeFixedCell_encodeCell_none (decimalCodec (M + 1)) opts buf offset hzero,
      show (decimalCodec (M + 1)).width = M + 1 from rfl,
      show (decimalCodec (M + 1)).dec = decodeDecimal from rfl,
      from_slice_replicate_zero]
    simp only [Nat.add_sub_cancel]
    cases hd : opts.descending with
    | false =>
      rw [if_neg Bool.false_ne_true, if_neg Bool.false_ne_true,
        decodeDecimal_replicate_zero M]
    | true =>
      rw [if_pos rfl, if_pos rfl, decodeDecimal_replicate_255 M]

/-- Witness for C8 amended at concrete inputs: the generic payload-decode
form at the `bool` codec, then `i16` descending (maximum), `u8` ascending
(zero), `f32` ascending (the all-ones NaN pattern), and a 2-byte decimal
ascending (the most negative value). -/
theorem C8_amended_witness :
    ((decodeFixedCell boolCodec ⟨false, false⟩
        (readRange (encodeCell boolCodec ⟨false, false⟩ (fun _ => 0) 0 none).1 0
          boolCodec.encodedLen)).1
      = ((false : Bool),
         boolCodec.dec (from_slice (List.replicate boolCodec.width 0)
           (SortOptions.mk false false).descending))) ∧
    ((decodeFixedCell (signedCodec 2) ⟨true, true⟩
        (readRange (encodeCell (signedCodec 2) ⟨true, true⟩ (fun _ => 0) 3 none).1 3
          (signedCodec 2).encodedLen)).1
      = ((false : Bool),
         if (SortOptions.mk true true).descending then 2 ^ (8 * 2 - 1) - 1
         else -(2 ^ (8 * 2 - 1)))) ∧
    ((decodeFixedCell (unsignedCodec 1) ⟨false, false⟩
        (readRange (encodeCell (unsignedCodec 1) ⟨false, false⟩ (fun _ => 0) 0 none).1 0
          (unsignedCodec 1).encodedLen)).1
      = ((false : Bool),
         if (SortOptions.mk false false).descending then 2 ^ (8 * 1) - 1 else 0)) ∧
    ((decodeFixedCell (floatCodec 4) ⟨false, true⟩
        (readRange (encodeCell (floatCodec 4) ⟨false, true⟩ (fun _ => 0) 0 none).1 0
          (floatCodec 4).encodedLen)).1
      = ((false : Bool),
         if (SortOptions.mk false true).descending then 2 ^ (8 * 4 - 1) - 1
         else 2 ^ (8 * 4) - 1)) ∧
    ((decodeFixedCell (decimalCodec 2) ⟨false, false⟩
        (readRange (encodeCell (decimalCodec 2) ⟨false, false⟩ (fun _ => 0) 0 none).1 0
          (decimalCodec 2).encodedLen)).1
      = ((false : Bool),
         if (SortOptions.mk false false).descending then List.replicate (2 - 1) 255 ++ [127]
         else List.replicate (2 - 1) 0 ++ [128])) :=
  ⟨C8_amended.1 Bool boolCodec ⟨false, false⟩ (fun _ => 0) 0 (fun _ => rfl),
   C8_amended.2.1 2 (by norm_num) ⟨true, true⟩ (fun _ => 0) 3 (fun _ => rfl),
   C8_amended.2.2.1 1 ⟨false, false⟩ (fun _ => 0) 0 (fun _ => rfl),
   C8_amended.2.2.2.1 4 (by norm_num) ⟨false, true⟩ (fun _ => 0) 0 (fun _ => rfl),
   C8_amended.2.2.2.2 2 (by norm_num) ⟨false, false⟩ (fun _ => 0) 0 (fun _ => rfl)⟩

theorem readRange_negateRange (buf : Nat → Nat) (a len : Nat) :
    readRange (negateRange buf a (a + len)) a len = (readRange buf a len).map byteNot := by
  unfold readRange negateRange
  rw [List.map_map]
  apply List.map_congr_left
  intro j hj
  have hjr := List.mem_range.mp hj
  simp only [Function.comp]
  rw [if_pos ⟨Nat.le_add_right _ _, by omega⟩]

theorem encodeDictCell_none_eq (opts : SortOptions) (buf : Nat → Nat) (offset : Nat) :
    encodeDictCell opts buf offset none
      = (bufSet buf offset (null_sentinel opts), offset + 1) := rfl

theorem encodeDictCell_some_fst (opts : SortOptions) (buf : Nat → Nat) (offset : Nat)
    (nk : List Nat) :
    (encodeDictCell opts buf offset (some nk)).1
      = if opts.descending then
          negateRange (bufWrite buf offset (1 :: nk)) offset (offset + 1 + nk.length)
        else bufWrite buf offset (1 :: nk) := rfl

theorem encodeDictCell_some_snd (opts : SortOptions) (buf : Nat → Nat) (offset : Nat)
    (nk : List Nat) :
    (encodeDictCell opts buf offset (some nk)).2 = offset + 1 + nk.length := rfl

theorem encodeDictCell_some_readRange (opts : SortOptions) (buf : Nat → Nat)
    (offset : Nat) (nk : List Nat) :
    readRange (encodeDictCell opts buf offset (some nk)).1 offset (1 + nk.length)
      = if opts.descending then (1 :: nk).map byteNot else 1 :: nk := by
  have hlen : (1 :: nk).length = 1 + nk.length := by
    simp only [List.length_cons]
    omega
  have hw : readRange (bufWrite buf offset (1 :: nk)) offset (1 + nk.length) = 1 :: nk := by
    rw [← hlen]
    exact readRange_bufWrite buf offset (1 :: nk)
  rw [encodeDictCell_some_fst]
  cases hd : opts.descending with
  | false =>
    rw [if_neg Bool.false_ne_true, if_neg Bool.false_ne_true]
    exact hw
  | true =>
    rw [if_pos rfl, if_pos rfl]
    have hassoc : offset + 1 + nk.length = offset + (1 + nk.length) := by omega
    rw [hassoc, readRange_negateRange, hw]

theorem encodeDictLoop_offsets (opts : SortOptions) (buf : Nat → Nat)
    (offs : List Nat) (mks : List (Option (List Nat))) :
    (encodeDictLoop opts buf offs mks).2
      = List.zipWith (fun o mk => o + dictAdvance mk) offs mks
        ++ offs.drop mks.length := by
  induction offs generalizing buf mks with
  | nil => cases mks <;> rfl
  | cons o offs ih =>
    cases mks with
    | nil => rfl
    | cons mk ks =>
      simp only [encodeDictLoop, List.zipWith_cons_cons, List.length_cons,
        List.drop_succ_cons]
      rw [ih]
      congr 1
      cases mk with
      | none => rfl
      | some nk =>
        rw [encodeDictCell_some_snd]
        show o + 1 + nk.length = o + (1 + nk.length)
        omega

/-- C9: per dictionary row (dictionary.rs lines 70-89): when the key is null
or maps to a null normalized key, the encoder writes exactly the single null
sentinel byte and advances that row's offset by 1; otherwise it writes `0x01`
followed by the normalized key bytes verbatim (these carry their trailing
terminator), the whole segment bit-flipped when descending, and advances by
`1 + len`.  The loop applies this body at every row's cursor, so the final
cursor list adds exactly these per-row advances. -/
theorem C9_dictionary_row_encoding (opts : SortOptions) (buf : Nat → Nat)
    (offset : Nat) :
    ((encodeDictCell opts buf offset none).1 offset = null_sentinel opts ∧
     (∀ j, j ≠ offset → (encodeDictCell opts buf offset none).1 j = buf j) ∧
     (encodeDictCell opts buf offset none).2 = offset + 1) ∧
    (∀ nk : List Nat,
      readRange (encodeDictCell opts buf offset (some nk)).1 offset (1 + nk.length)
        = (if opts.descending then (1 :: nk).map byteNot else 1 :: nk) ∧
      (encodeDictCell opts buf offset (some nk)).2 = offset + 1 + nk.length) ∧
    (∀ (buf2 : Nat → Nat) (offs : List Nat) (mks : List (Option (List Nat))),
      (encodeDictLoop opts buf2 offs mks).2
        = List.zipWith (fun o mk => o + dictAdvance mk) offs mks
          ++ offs.drop mks.length) := by
  refine ⟨⟨?_, ?_, rfl⟩, fun nk => ⟨encodeDictCell_some_readRange opts buf offset nk,
    encodeDictCell_some_snd opts buf offset nk⟩,
    fun buf2 offs mks => encodeDictLoop_offsets opts buf2 offs mks⟩
  · rw [encodeDictCell_none_eq]
    unfold bufSet
    simp
  · intro j hj
    rw [encodeDictCell_none_eq]
    unfold bufSet
    simp only
    rw [if_neg hj]

/-- Witness for C9 at a concrete input (ascending, nulls last). -/
theorem C9_dictionary_row_encoding_witness :
    ((encodeDictCell ⟨false, false⟩ (fun _ => 0) 4 none).1 4
        = null_sentinel ⟨false, false⟩ ∧
     (∀ j, j ≠ 4 → (encodeDictCell ⟨false, false⟩ (fun _ => 0) 4 none).1 j
        = (fun _ => (0 : Nat)) j) ∧
     (encodeDictCell ⟨false, false⟩ (fun _ => 0) 4 none).2 = 4 + 1) ∧
    (∀ nk : List Nat,
      readRange (encodeDictCell ⟨false, false⟩ (fun _ => 0) 4 (some nk)).1 4 (1 + nk.length)
        = (if (SortOptions.mk false false).descending then (1 :: nk).map byteNot
           else 1 :: nk) ∧
      (encodeDictCell ⟨false, false⟩ (fun _ => 0) 4 (some nk)).2 = 4 + 1 + nk.length) ∧
    (∀ (buf2 : Nat → Nat) (offs : List Nat) (mks : List (Option (List Nat))),
      (encodeDictLoop ⟨false, false⟩ buf2 offs mks).2
        = List.zipWith (fun o mk => o + dictAdvance mk) offs mks
          ++ offs.drop mks.length) :=
  C9_dictionary_row_encoding ⟨false, false⟩ (fun _ => 0) 4

/-- C2 counterexample: for a descending fixed-width column the encoder does
not invert the whole written range: encoding `some 0` (`i8`, descending)
writes `[0x01, 0x7F]`, whereas bitwise-NOT of the entire ascending segment
`[0x01, 0x80]` would be `[0xFE, 0x7F]`. -/
theorem C2_counterexample :
    readRange (encodeCell (signedCodec 1) ⟨true, true⟩ (fun _ => 0) 0 (some 0)).1 0 2
      = [1, 127] ∧
    readRange (encodeCell (signedCodec 1) ⟨true, true⟩ (fun _ => 0) 0 (some 0)).1 0 2
      ≠ (readRange (encodeCell (signedCodec 1) ⟨false, true⟩ (fun _ => 0) 0
          (some 0)).1 0 2).map byteNot := by
  constructor
  · decide
  · decide

/-- C2 amended: for a descending column, the dictionary encoder bitwise-NOTs
the entire written range (validity byte, normalized key and terminator
together), but the fixed-width encoder inverts only the payload bytes — the
validity byte is written as `0x01` uninverted. -/
theorem C2_amended {α : Type} (c : FixedLengthEncoding α) (opts : SortOptions)
    (hdesc : opts.descending = true) (buf : Nat → Nat) (offset : Nat) (v : α)
    (nk : List Nat) :
    readRange (encodeCell c opts buf offset (some v)).1 offset (1 + (c.enc v).length)
      = 1 :: (c.enc v).map byteNot ∧
    readRange (encodeDictCell opts buf offset (some nk)).1 offset (1 + nk.length)
      = (1 :: nk).map byteNot := by
  constructor
  · have hc1 : (encodeCell c opts buf offset (some v)).1
        = bufWrite buf offset
            (1 :: (if opts.descending then (c.enc v).map byteNot else c.enc v)) := rfl
    rw [hc1, hdesc, if_pos rfl]
    have hlen : (1 :: (c.enc v).map byteNot).length = 1 + (c.enc v).length := by
      simp only [List.length_cons, List.length_map]
      omega
    rw [← hlen]
    exact readRange_bufWrite _ _ _
  · rw [encodeDictCell_some_readRange, hdesc, if_pos rfl]

/-- Witness for C2 amended at a concrete input. -/
theorem C2_amended_witness :
    readRange (encodeCell (signedCodec 1) ⟨true, false⟩ (fun _ => 0) 0 (some 1)).1 0
        (1 + ((signedCodec 1).enc 1).length)
      = 1 :: ((signedCodec 1).enc 1).map byteNot ∧
    readRange (encodeDictCell ⟨true, false⟩ (fun _ => 0) 0 (some [9, 0])).1 0
        (1 + ([9, 0] : List Nat).length)
      = (1 :: [9, 0]).map byteNot :=
  C2_amended (signedCodec 1) ⟨true, false⟩ rfl (fun _ => 0) 0 1 [9, 0]

theorem decodeDictLoop_cons_null (cap : Nat) (opts : SortOptions)
    (lk : List Nat → Option Nat) (vf : Nat → List Nat) (row : List Nat)
    (rest : List (List Nat)) (st : DictState) (b0 : Nat)
    (hhead : row.head? = some b0) (hsent : b0 = null_sentinel opts) :
    decodeDictLoop cap opts lk vf (row :: rest) st
      = decodeDictLoop cap opts lk vf rest
          { st with
            nulls := st.nulls ++ [false]
            null_count := st.null_count + 1
            keys := st.keys ++ [0] } := by
  simp only [decodeDictLoop, hhead]
  rw [if_pos hsent]

theorem decodeDictLoop_cons_valid (cap : Nat) (opts : SortOptions)
    (lk : List Nat → Option Nat) (vf : Nat → List Nat) (row : List Nat)
    (rest : List (List Nat)) (st : DictState) (b0 ko id : Nat)
    (hhead : row.head? = some b0) (hsent : ¬ b0 = null_sentinel opts)
    (hterm : (row.drop 1).findIdx? (fun x => x == null_terminator opts) = some ko)
    (hlk : lk (if opts.descending then ((row.drop 1).take (ko + 1)).map byteNot
               else (row.drop 1).take (ko + 1)) = some id) :
    decodeDictLoop cap opts lk vf (row :: rest) st
      = match lookupAssoc st.dict id with
        | some k =>
          decodeDictLoop cap opts lk vf rest
            { st with
              keys := st.keys ++ [k]
              nulls := st.nulls ++ [true] }
        | none =>
          match fromUsize cap st.values.length with
          | none => .err .dictionaryKeyOverflow
          | some key' =>
            decodeDictLoop cap opts lk vf rest
              { st with
                dict := (id, key') :: st.dict
                values := st.values ++ [vf id]
                keys := st.keys ++ [key']
                nulls := st.nulls ++ [true] } := by
  simp only [decodeDictLoop, hhead, hterm, if_neg hsent, hlk]

theorem rowInterned_of_null (opts : SortOptions) (lk : List Nat → Option Nat)
    (row : List Nat) (b0 : Nat) (hhead : row.head? = some b0)
    (hsent : b0 = null_sentinel opts) : rowInterned opts lk row = none := by
  simp only [rowInterned, hhead]
  rw [if_pos hsent]

theorem rowInterned_of_valid (opts : SortOptions) (lk : List Nat → Option Nat)
    (row : List Nat) (b0 ko : Nat) (hhead : row.head? = some b0)
    (hsent : ¬ b0 = null_sentinel opts)
    (hterm : (row.drop 1).findIdx? (fun x => x == null_terminator opts) = some ko) :
    rowInterned opts lk row
      = lk (if opts.descending then ((row.drop 1).take (ko + 1)).map byteNot
            else (row.drop 1).take (ko + 1)) := by
  simp only [rowInterned, hhead, hterm, if_neg hsent]

theorem wfRow_elim (opts : SortOptions) (lk : List Nat → Option Nat)
    (row : List Nat) (h : wfRow opts lk row = true) :
    ∃ b0, row.head? = some b0 ∧
      (b0 = null_sentinel opts ∨
       (¬ b0 = null_sentinel opts ∧ ∃ ko id,
         (row.drop 1).findIdx? (fun x => x == null_terminator opts) = some ko ∧
         lk (if opts.descending then ((row.drop 1).take (ko + 1)).map byteNot
             else (row.drop 1).take (ko + 1)) = some id)) := by
  unfold wfRow at h
  cases hhead : row.head? with
  | none => rw [hhead] at h; simp at h
  | some b0 =>
    rw [hhead] at h
    refine ⟨b0, rfl, ?_⟩
    by_cases hs : b0 = null_sentinel opts
    · exact Or.inl hs
    · right
      refine ⟨hs, ?_⟩
      simp only [Bool.or_eq_true, beq_iff_eq] at h
      rcases h with h | h
      · exact absurd h hs
      · cases hterm : (row.drop 1).findIdx? (fun x => x == null_terminator opts) with
        | none => rw [hterm] at h; simp at h
        | some ko =>
          rw [hterm] at h
          simp only [Option.isSome_iff_exists] at h
          obtain ⟨id, hid⟩ := h
          exact ⟨ko, id, rfl, hid⟩

/-- C6 counterexample: a row slice whose validity byte is not the sentinel but
which contains no terminator makes `decode_dictionary` panic (the `position
(..).unwrap()` at dictionary.rs line 133), not return a `MalformedRow` tagged
error. -/
theorem C6_counterexample :
    decodeDictLoop 100 ⟨false, true⟩ (fun k => k.head?) (fun i => [i]) [[1]]
      initDictState = DecodeOutcome.panic ∧
    decodeDictLoop 100 ⟨false, true⟩ (fun k => k.head?) (fun i => [i]) [[1]]
      initDictState ≠ DecodeOutcome.err RowError.malformedRow := by
  constructor
  · rfl
  · decide

/-- C6 amended: when a row slice ends before a terminator is found the
dictionary decoder panics (`unwrap` of `None`), and the fixed-width decoder
does not validate the validity byte at all — any byte other than `0x01`
(sentinel or not) is silently treated as null; no `MalformedRow` tagged error
is produced anywhere. -/
theorem C6_amended (cap : Nat) (opts : SortOptions) (lk : List Nat → Option Nat)
    (vf : Nat → List Nat) (b0 : Nat) (tail : List Nat) (rest : List (List Nat))
    (st : DictState) (hb0 : ¬ b0 = null_sentinel opts)
    (hterm : tail.findIdx? (fun x => x == null_terminator opts) = none) :
    decodeDictLoop cap opts lk vf ((b0 :: tail) :: rest) st = DecodeOutcome.panic ∧
    (∀ {α : Type} (c : FixedLengthEncoding α) (row : List Nat),
      ((decodeFixedCell c opts row).1).1 = (row.headD 0 == 1)) := by
  constructor
  · simp only [decodeDictLoop, List.head?_cons]
    rw [if_neg hb0]
    simp only [List.drop_succ_cons, List.drop_zero, hterm]
  · intro α c row
    exact decodeFixedCell_fst_fst c opts row

/-- Witness for C6 amended at a concrete input. -/
theorem C6_amended_witness :
    decodeDictLoop 100 ⟨false, true⟩ (fun k => k.head?) (fun i => [i]) [[1]]
      initDictState = DecodeOutcome.panic ∧
    (∀ {α : Type} (c : FixedLengthEncoding α) (row : List Nat),
      ((decodeFixedCell c ⟨false, true⟩ row).1).1 = (row.headD 0 == 1)) :=
  C6_amended 100 ⟨false, true⟩ (fun k => k.head?) (fun i => [i]) 1 [] [] initDictState
    (by decide) rfl

theorem dictInv_extend (st : DictState) (S : Finset Nat) (id key' : Nat)
    (hinv : dictInv st S) (hid : id ∉ S) (v : List Nat) :
    dictInv { st with
      dict := (id, key') :: st.dict
      values := st.values ++ [v]
      keys := st.keys ++ [key']
      nulls := st.nulls ++ [true] } (insert id S) := by
  obtain ⟨hlook, hlen⟩ := hinv
  constructor
  · intro i
    show ((if i = id then some key' else lookupAssoc st.dict i).isSome = true) ↔ _
    by_cases hi : i = id
    · subst hi
      simp
    · rw [if_neg hi, hlook]
      simp [hi]
  · show (st.values ++ [v]).length = (insert id S).card
    simp [Finset.card_insert_of_not_mem hid, hlen]

theorem decodeDictLoop_cons_hit (cap : Nat) (opts : SortOptions)
    (lk : List Nat → Option Nat) (vf : Nat → List Nat) (row : List Nat)
    (rest : List (List Nat)) (st : DictState) (b0 ko id k : Nat)
    (hhead : row.head? = some b0) (hsent : ¬ b0 = null_sentinel opts)
    (hterm : (row.drop 1).findIdx? (fun x => x == null_terminator opts) = some ko)
    (hlk : lk (if opts.descending then ((row.drop 1).take (ko + 1)).map byteNot
               else (row.drop 1).take (ko + 1)) = some id)
    (hla : lookupAssoc st.dict id = some k) :
    decodeDictLoop cap opts lk vf (row :: rest) st
      = decodeDictLoop cap opts lk vf rest
          { st with
            keys := st.keys ++ [k]
            nulls := st.nulls ++ [true] } := by
  rw [decodeDictLoop_cons_valid cap opts lk vf row rest st b0 ko id hhead hsent hterm hlk]
  simp only [hla]

theorem decodeDictLoop_cons_vacant_ok (cap : Nat) (opts : SortOptions)
    (lk : List Nat → Option Nat) (vf : Nat → List Nat) (row : List Nat)
    (rest : List (List Nat)) (st : DictState) (b0 ko id : Nat)
    (hhead : row.head? = some b0) (hsent : ¬ b0 = null_sentinel opts)
    (hterm : (row.drop 1).findIdx? (fun x => x == null_terminator opts) = some ko)
    (hlk : lk (if opts.descending then ((row.drop 1).take (ko + 1)).map byteNot
               else (row.drop 1).take (ko + 1)) = some id)
    (hla : lookupAssoc st.dict id = none) (hfu : st.values.length < cap) :
    decodeDictLoop cap opts lk vf (row :: rest) st
      = decodeDictLoop cap opts lk vf rest
          { st with
            dict := (id, st.values.length) :: st.dict
            values := st.values ++ [vf id]
            keys := st.keys ++ [st.values.length]
            nulls := st.nulls ++ [true] } := by
  rw [decodeDictLoop_cons_valid cap opts lk vf row rest st b0 ko id hhead hsent hterm hlk]
  have hfu' : fromUsize cap st.values.length = some st.values.length := by
    unfold fromUsize
    rw [if_pos hfu]
  simp only [hla, hfu']

theorem decodeDictLoop_cons_vacant_err (cap : Nat) (opts : SortOptions)
    (lk : List Nat → Option Nat) (vf : Nat → List Nat) (row : List Nat)
    (rest : List (List Nat)) (st : DictState) (b0 ko id : Nat)
    (hhead : row.head? = some b0) (hsent : ¬ b0 = null_sentinel opts)
    (hterm : (row.drop 1).findIdx? (fun x => x == null_terminator opts) = some ko)
    (hlk : lk (if opts.descending then ((row.drop 1).take (ko + 1)).map byteNot
               else (row.drop 1).take (ko + 1)) = some id)
    (hla : lookupAssoc st.dict id = none) (hfu : ¬ st.values.length < cap) :
    decodeDictLoop cap opts lk vf (row :: rest) st
      = .err .dictionaryKeyOverflow := by
  rw [decodeDictLoop_cons_valid cap opts lk vf row rest st b0 ko id hhead hsent hterm hlk]
  have hfu' : fromUsize cap st.values.length = none := by
    unfold fromUsize
    rw [if_neg hfu]
  simp only [hla, hfu']

theorem decodeDictLoop_ok (cap : Nat) (opts : SortOptions)
    (lk : List Nat → Option Nat) (vf : Nat → List Nat) (rows : List (List Nat)) :
    ∀ (st : DictState) (S : Finset Nat),
      (∀ r ∈ rows, wfRow opts lk r = true) →
      dictInv st S →
      (S ∪ (rows.filterMap (rowInterned opts lk)).toFinset).card ≤ cap →
      ∃ st', decodeDictLoop cap opts lk vf rows st = .ok st' := by
  induction rows with
  | nil =>
    intro st S _ _ _
    exact ⟨st, rfl⟩
  | cons row rest ih =>
    intro st S hwf hinv hcard
    obtain ⟨b0, hhead, hcases⟩ := wfRow_elim opts lk row (hwf row (List.mem_cons_self _ _))
    have hwfrest : ∀ r ∈ rest, wfRow opts lk r = true :=
      fun r hr => hwf r (List.mem_cons_of_mem _ hr)
    rcases hcases with hsent | ⟨hsent, ko, id, hterm, hlk⟩
    · rw [decodeDictLoop_cons_null cap opts lk vf row rest st b0 hhead hsent]
      rw [List.filterMap_cons_none
        (rowInterned_of_null opts lk row b0 hhead hsent)] at hcard
      exact ih { st with
          nulls := st.nulls ++ [false]
          null_count := st.null_count + 1
          keys := st.keys ++ [0] } S hwfrest ⟨hinv.1, hinv.2⟩ hcard
    · have hri : rowInterned opts lk row = some id := by
        rw [rowInterned_of_valid opts lk row b0 ko hhead hsent hterm]
        exact hlk
      rw [List.filterMap_cons_some hri, List.toFinset_cons, Finset.union_insert] at hcard
      obtain ⟨hlook, hlen⟩ := hinv
      cases hla : lookupAssoc st.dict id with
      | some k =>
        rw [decodeDictLoop_cons_hit cap opts lk vf row rest st b0 ko id k
          hhead hsent hterm hlk hla]
        have hidS : id ∈ S := by
          rw [← hlook id, hla]
          rfl
        have habs : insert id (S ∪ (rest.filterMap (rowInterned opts lk)).toFinset)
            = S ∪ (rest.filterMap (rowInterned opts lk)).toFinset :=
          Finset.insert_eq_self.mpr (Finset.mem_union_left _ hidS)
        rw [habs] at hcard
        exact ih { st with
            keys := st.keys ++ [k]
            nulls := st.nulls ++ [true] } S hwfrest ⟨hlook, hlen⟩ hcard
      | none =>
        have hidS : id ∉ S := by
          rw [← hlook id, hla]
          simp
        have hScap : S.card < cap := by
          have h1 : (insert id S).card ≤ (insert id
              (S ∪ (rest.filterMap (rowInterned opts lk)).toFinset)).card :=
            Finset.card_le_card
              (Finset.insert_subset_insert id Finset.subset_union_left)
          rw [Finset.card_insert_of_not_mem hidS] at h1
          omega
        rw [decodeDictLoop_cons_vacant_ok cap opts lk vf row rest st b0 ko id
          hhead hsent hterm hlk hla (by omega)]
        have hre : insert id S ∪ (rest.filterMap (rowInterned opts lk)).toFinset
            = insert id (S ∪ (rest.filterMap (rowInterned opts lk)).toFinset) :=
          Finset.insert_union id S _
        exact ih _ (insert id S) hwfrest
          (dictInv_extend st S id st.values.length ⟨hlook, hlen⟩ hidS (vf id))
          (by rw [hre]; exact hcard)

theorem decodeDictLoop_err (cap : Nat) (opts : SortOptions)
    (lk : List Nat → Option Nat) (vf : Nat → List Nat) (rows : List (List Nat)) :
    ∀ (st : DictState) (S : Finset Nat),
      (∀ r ∈ rows, wfRow opts lk r = true) →
      dictInv st S →
      S.card ≤ cap →
      cap < (S ∪ (rows.filterMap (rowInterned opts lk)).toFinset).card →
      decodeDictLoop cap opts lk vf rows st = .err .dictionaryKeyOverflow := by
  induction rows with
  | nil =>
    intro st S _ _ hle hgt
    simp only [List.filterMap_nil, List.toFinset_nil, Finset.union_empty] at hgt
    omega
  | cons row rest ih =>
    intro st S hwf hinv hle hgt
    obtain ⟨b0, hhead, hcases⟩ := wfRow_elim opts lk row (hwf row (List.mem_cons_self _ _))
    have hwfrest : ∀ r ∈ rest, wfRow opts lk r = true :=
      fun r hr => hwf r (List.mem_cons_of_mem _ hr)
    rcases hcases with hsent | ⟨hsent, ko, id, hterm, hlk⟩
    · rw [decodeDictLoop_cons_null cap opts lk vf row rest st b0 hhead hsent]
      rw [List.filterMap_cons_none
        (rowInterned_of_null opts lk row b0 hhead hsent)] at hgt
      exact ih { st with
          nulls := st.nulls ++ [false]
          null_count := st.null_count + 1
          keys := st.keys ++ [0] } S hwfrest ⟨hinv.1, hinv.2⟩ hle hgt
    · have hri : rowInterned opts lk row = some id := by
        rw [rowInterned_of_valid opts lk row b0 ko hhead hsent hterm]
        exact hlk
      rw [List.filterMap_cons_some hri, List.toFinset_cons, Finset.union_insert] at hgt
      obtain ⟨hlook, hlen⟩ := hinv
      cases hla : lookupAssoc st.dict id with
      | some k =>
        rw [decodeDictLoop_cons_hit cap opts lk vf row rest st b0 ko id k
          hhead hsent hterm hlk hla]
        have hidS : id ∈ S := by
          rw [← hlook id, hla]
          rfl
        have habs : insert id (S ∪ (rest.filterMap (rowInterned opts lk)).toFinset)
            = S ∪ (rest.filterMap (rowInterned opts lk)).toFinset :=
          Finset.insert_eq_self.mpr (Finset.mem_union_left _ hidS)
        rw [habs] at hgt
        exact ih { st with
            keys := st.keys ++ [k]
            nulls := st.nulls ++ [true] } S hwfrest ⟨hlook, hlen⟩ hle hgt
      | none =>
        have hidS : id ∉ S := by
          rw [← hlook id, hla]
          simp
        by_cases hScap : S.card < cap
        · rw [decodeDictLoop_cons_vacant_ok cap opts lk vf row rest st b0 ko id
            hhead hsent hterm hlk hla (by omega)]
          have hre : insert id S ∪ (rest.filterMap (rowInterned opts lk)).toFinset
              = insert id (S ∪ (rest.filterMap (rowInterned opts lk)).toFinset) :=
            Finset.insert_union id S _
          exact ih _ (insert id S) hwfrest
            (dictInv_extend st S id st.values.length ⟨hlook, hlen⟩ hidS (vf id))
            (by rw [Finset.card_insert_of_not_mem hidS]; omega)
            (by rw [hre]; exact hgt)
        · exact decodeDictLoop_cons_vacant_err cap opts lk vf row rest st b0 ko id
            hhead hsent hterm hlk hla (by omega)

/-- C5: for well-formed row slices (terminated keys known to the interner),
the decode loop of `decode_dictionary` returns `DictionaryKeyOverflow` iff the
number of distinct interned ids among the non-null rows — the number of
distinct dense indices — exceeds `cap`, the number of key values
representable by the dictionary key type `K` (`K::Native::from_usize`); if it
does not exceed `cap`, no such error is returned. -/
theorem C5_dictionary_overflow (cap : Nat) (opts : SortOptions)
    (lk : List Nat → Option Nat) (vf : Nat → List Nat) (rows : List (List Nat))
    (hwf : ∀ r ∈ rows, wfRow opts lk r = true) :
    (decodeDictLoop cap opts lk vf rows initDictState
        = DecodeOutcome.err RowError.dictionaryKeyOverflow)
      ↔ cap < ((rows.filterMap (rowInterned opts lk)).toFinset).card := by
  have hinv : dictInv initDictState ∅ := by
    constructor
    · intro i
      simp [initDictState, lookupAssoc]
    · simp [initDictState]
  constructor
  · intro herr
    by_contra hnot
    push_neg at hnot
    obtain ⟨st', hok⟩ := decodeDictLoop_ok cap opts lk vf rows initDictState ∅ hwf hinv
      (by rw [Finset.empty_union]; omega)
    rw [hok] at herr
    exact absurd herr (by simp)
  · intro hgt
    exact decodeDictLoop_err cap opts lk vf rows initDictState ∅ hwf hinv (by simp)
      (by rw [Finset.empty_union]; exact hgt)

/-- Witness for C5: a one-byte-capacity key type (`cap = 1`) overflows on two
distinct interned values. -/
theorem C5_dictionary_overflow_witness :
    (decodeDictLoop 1 ⟨false, true⟩ (fun k => k.head?) (fun i => [i])
        [[1, 5, 0], [1, 6, 0]] initDictState
      = DecodeOutcome.err RowError.dictionaryKeyOverflow)
    ↔ 1 < ((([[1, 5, 0], [1, 6, 0]] : List (List Nat)).filterMap
        (rowInterned ⟨false, true⟩ (fun k => k.head?))).toFinset).card :=
  C5_dictionary_overflow 1 ⟨false, true⟩ (fun k => k.head?) (fun i => [i])
    [[1, 5, 0], [1, 6, 0]] (by decide)

theorem range_any_congr (len : Nat) (f g : Nat → Bool)
    (h : ∀ i, i < len → f i = g i) :
    (List.range len).any f = (List.range len).any g := by
  induction len with
  | zero => rfl
  | succ n ih =>
    rw [List.range_succ, List.any_append, List.any_append]
    rw [ih (fun i hi => h i (by omega))]
    simp [h n (by omega)]

theorem range_all_congr (len : Nat) (f g : Nat → Bool)
    (h : ∀ i, i < len → f i = g i) :
    (List.range len).all f = (List.range len).all g := by
  induction len with
  | zero => rfl
  | succ n ih =>
    rw [List.range_succ, List.all_append, List.all_append]
    rw [ih (fun i hi => h i (by omega))]
    simp [h n (by omega)]

theorem isNullAt_some (d : DecArrayData) (bits : List Bool) (p : Nat)
    (h : d.nulls = some bits) : isNullAt d p = ! get_bit bits (p + d.offset) := by
  unfold isNullAt
  rw [h]

theorem contains_nulls_eq_any (d : DecArrayData) (start len : Nat) :
    contains_nulls d.nulls (start + d.offset) len
      = (List.range len).any fun i => isNullAt d (start + i) := by
  unfold contains_nulls isNullAt
  cases hn : d.nulls with
  | none => simp
  | some bits =>
    apply range_any_congr
    intro i hi
    have : start + d.offset + i = start + i + d.offset := by omega
    rw [this]

theorem equal_len_comm (a b : List Nat) (x y n : Nat) :
    equal_len a b x y n = equal_len b a y x n := by
  unfold equal_len
  apply range_all_congr
  intro i hi
  simp only [Bool.beq_comm]

theorem decimal_equal_symm_aux (size : Nat) (lhs rhs : DecArrayData)
    (lhs_start rhs_start len : Nat)
    (hagree : ∀ i, i < len → isNullAt lhs (lhs_start + i) = isNullAt rhs (rhs_start + i)) :
    decimal_equal size lhs rhs lhs_start rhs_start len
      = decimal_equal size rhs lhs rhs_start lhs_start len := by
  have hc : contains_nulls lhs.nulls (lhs_start + lhs.offset) len
      = contains_nulls rhs.nulls (rhs_start + rhs.offset) len := by
    rw [contains_nulls_eq_any lhs lhs_start len, contains_nulls_eq_any rhs rhs_start len]
    apply range_any_congr
    intro i hi
    rw [hagree i hi]
  simp only [decimal_equal]
  rw [hc]
  by_cases hfast : contains_nulls rhs.nulls (rhs_start + rhs.offset) len = true
  · rw [hfast]
    simp only [Bool.not_true, Bool.false_eq_true, if_false]
    have hlsome : ∃ lb, lhs.nulls = some lb := by
      by_contra hno
      push_neg at hno
      have : lhs.nulls = none := by
        cases h : lhs.nulls with
        | none => rfl
        | some lb => exact absurd h (by intro hh; exact (hno lb) hh)
      rw [contains_nulls_eq_any lhs lhs_start len] at hc
      unfold isNullAt at hc
      rw [this] at hc
      simp at hc
      rw [← hc] at hfast
      simp at hfast
    have hrsome : ∃ rb, rhs.nulls = some rb := by
      by_contra hno
      push_neg at hno
      have : rhs.nulls = none := by
        cases h : rhs.nulls with
        | none => rfl
        | some rb => exact absurd h (by intro hh; exact (hno rb) hh)
      rw [this] at hfast
      simp [contains_nulls] at hfast
    obtain ⟨lb, hlb⟩ := hlsome
    obtain ⟨rb, hrb⟩ := hrsome
    rw [hlb, hrb]
    refine congrArg some (range_all_congr len _ _ ?_)
    intro i hi
    have hni := hagree i hi
    rw [isNullAt_some lhs lb _ hlb, isNullAt_some rhs rb _ hrb] at hni
    rw [hni, equal_len_comm]
  · rw [eq_false_of_ne_true hfast]
    simp only [Bool.not_false, if_true]
    rw [equal_len_comm]

/-- C10: in `decimal_equal`, a position whose left-hand element is null is
counted as equal regardless of the right-hand array (its validity bit has no
effect and its value bytes are never compared): over a range where every
left element is null the result is `true` for every `rhs` whatsoever.
Consequently the function is symmetric under the precondition that the two
null masks agree on the compared range — and not in general, as the concrete
pair in the last conjunct shows. -/
theorem C10_decimal_equal (size : Nat) (lhs : DecArrayData)
    (lhs_start rhs_start len : Nat) :
    ((∀ (rhs : DecArrayData) (lb rb : List Bool), lhs.nulls = some lb →
        rhs.nulls = some rb → 0 < len →
        (∀ i, i < len → isNullAt lhs (lhs_start + i) = true) →
        decimal_equal size lhs rhs lhs_start rhs_start len = some true) ∧
     (∀ (rhs : DecArrayData),
        (∀ i, i < len → isNullAt lhs (lhs_start + i) = isNullAt rhs (rhs_start + i)) →
        decimal_equal size lhs rhs lhs_start rhs_start len
          = decimal_equal size rhs lhs rhs_start lhs_start len)) ∧
    (decimal_equal 16 ⟨List.replicate 16 0, some [false], 0⟩
        ⟨List.replicate 16 1, some [true], 0⟩ 0 0 1 = some true ∧
     decimal_equal 16 ⟨List.replicate 16 1, some [true], 0⟩
        ⟨List.replicate 16 0, some [false], 0⟩ 0 0 1 = some false) := by
  refine ⟨⟨?_, fun rhs h => decimal_equal_symm_aux size lhs rhs lhs_start rhs_start len h⟩,
    by decide, by decide⟩
  intro rhs lb rb hlb hrb hlen hall
  have hcont : contains_nulls lhs.nulls (lhs_start + lhs.offset) len = true := by
    rw [contains_nulls_eq_any lhs lhs_start len]
    rw [List.any_eq_true]
    exact ⟨0, List.mem_range.mpr hlen, hall 0 hlen⟩
  simp only [decimal_equal]
  rw [hcont]
  simp only [Bool.not_true, Bool.false_eq_true, if_false]
  rw [hlb, hrb]
  refine congrArg some ?_
  rw [List.all_eq_true]
  intro i hi
  have hic := List.mem_range.mp hi
  have := hall i hic
  rw [isNullAt_some lhs lb _ hlb] at this
  rw [this]
  rfl

/-- Witness for C10 at a concrete input. -/
theorem C10_decimal_equal_witness :
    ((∀ (rhs : DecArrayData) (lb rb : List Bool),
        (DecArrayData.mk (List.replicate 16 0) (some [false]) 0).nulls = some lb →
        rhs.nulls = some rb → 0 < 1 →
        (∀ i, i < 1 →
          isNullAt (DecArrayData.mk (List.replicate 16 0) (some [false]) 0) (0 + i) = true) →
        decimal_equal 16 (DecArrayData.mk (List.replicate 16 0) (some [false]) 0)
          rhs 0 0 1 = some true) ∧
     (∀ (rhs : DecArrayData),
        (∀ i, i < 1 →
          isNullAt (DecArrayData.mk (List.replicate 16 0) (some [false]) 0) (0 + i)
            = isNullAt rhs (0 + i)) →
        decimal_equal 16 (DecArrayData.mk (List.replicate 16 0) (some [false]) 0)
            rhs 0 0 1
          = decimal_equal 16 rhs
              (DecArrayData.mk (List.replicate 16 0) (some [false]) 0) 0 0 1)) ∧
    (decimal_equal 16 ⟨List.replicate 16 0, some [false], 0⟩
        ⟨List.replicate 16 1, some [true], 0⟩ 0 0 1 = some true ∧
     decimal_equal 16 ⟨List.replicate 16 1, some [true], 0⟩
        ⟨List.replicate 16 0, some [false], 0⟩ 0 0 1 = some false) :=
  C10_decimal_equal 16 ⟨List.replicate 16 0, some [false], 0⟩ 0 0 1
